import Mathlib

/-!
Verification development for the Resonance recording plugin.

The definitions below are shallow embeddings of the TypeScript sources:
`src/markdown.ts` (checkbox normalisation), `src/RecorderService.ts` and its
live-watcher variant (retention enforcement, device resolution, the recorder
phase machine, the live segment watcher).  JavaScript strings are modelled as
Lean `String`/`List Char`; JavaScript regular expressions are modelled by
faithful backtracking parsers (greedy quantifiers try the longest match
first, optional groups try the present branch first, exactly as ECMAScript
prescribes).
-/

namespace Resonance

/-- The apostrophe character, written via its code point. -/
def quoteChar1 : Char := Char.ofNat 39

/-- The double-quote character. -/
def quoteChar2 : Char := Char.ofNat 34

/-- ECMAScript whitespace class `\s` (also the set used by `trim`/`trimEnd`):
TAB..CR, SP, NBSP, U+1680, U+2000..U+200A, U+2028, U+2029, U+202F, U+205F,
U+3000, U+FEFF. -/
def isSpaceJS (c : Char) : Bool :=
  let n := c.toNat
  (9 ≤ n && n ≤ 13) || n == 32 || n == 0xA0 || n == 0x1680 ||
  (0x2000 ≤ n && n ≤ 0x200A) || n == 0x2028 || n == 0x2029 ||
  n == 0x202F || n == 0x205F || n == 0x3000 || n == 0xFEFF

/-- The ECMAScript `.` (dot) character class without the `s` flag: any
character except the line terminators LF, CR, U+2028, U+2029. -/
def isDotChar (c : Char) : Bool :=
  !(c == '\n' || c == '\r' || c.toNat == 0x2028 || c.toNat == 0x2029)

/-- Is the character one of the two plain quote characters `"` `'`
(the character class `["']` in the checkbox regexes). -/
def isQuoteChar (c : Char) : Bool :=
  c == quoteChar1 || c == quoteChar2

/-- `String.prototype.trimEnd` on a character list: remove trailing
whitespace. -/
def jsTrimEndL (l : List Char) : List Char :=
  (l.reverse.dropWhile isSpaceJS).reverse

/-- `String.prototype.trim` on a character list. -/
def jsTrimL (l : List Char) : List Char :=
  ((l.dropWhile isSpaceJS).reverse.dropWhile isSpaceJS).reverse

/-- `String.prototype.trim` on strings. -/
def jsTrim (s : String) : String :=
  String.mk (jsTrimL s.toList)

/-- `str.split(/\r?\n/)`: break a character list at each LF, treating a CR
immediately followed by LF as part of the separator.  A CR not followed by
LF stays inside its line, exactly as the regular expression behaves. -/
def splitLinesJS : List Char → List (List Char)
  | [] => [[]]
  | '\r' :: '\n' :: rest => [] :: splitLinesJS rest
  | '\n' :: rest => [] :: splitLinesJS rest
  | c :: rest =>
    match splitLinesJS rest with
    | [] => [[c]]
    | l :: ls => (c :: l) :: ls

/-- `arr.join("\n")` on character lists. -/
def joinLinesJS : List (List Char) → List Char
  | [] => []
  | [l] => l
  | l :: ls => l ++ '\n' :: joinLinesJS ls

/-- The character rewrites at the top of `normalizeCheckboxes`: fullwidth
brackets to plain brackets, typographic quotes to plain quotes. -/
def normChar (c : Char) : Char :=
  if c.toNat == 0xFF3B || c.toNat == 0x3010 then '['
  else if c.toNat == 0xFF3D || c.toNat == 0x3011 then ']'
  else if c.toNat == 0x201C || c.toNat == 0x201D || c.toNat == 0xAB || c.toNat == 0xBB then quoteChar2
  else if c.toNat == 0x2018 || c.toNat == 0x2019 then quoteChar1
  else c

/-- Apply `normChar` to every character of a line. -/
def charNormalize (l : List Char) : List Char := l.map normChar

/-- All ways a greedy `\s*` can leave the input, longest consumption first
(the order in which a backtracking ECMAScript engine tries them). -/
def wsDrops : List Char → List (List Char)
  | [] => [[]]
  | c :: rest =>
    if isSpaceJS c then wsDrops rest ++ [c :: rest] else [c :: rest]

/-- Like `wsDrops` but also returning the consumed whitespace (used for the
capturing group `(\s*)`), longest consumption first. -/
def wsTakes : List Char → List (List Char × List Char)
  | [] => [([], [])]
  | c :: rest =>
    if isSpaceJS c then
      (wsTakes rest).map (fun p => (c :: p.1, p.2)) ++ [([], c :: rest)]
    else [([], c :: rest)]

/-- Try the alternatives in order, returning the first success: the
backtracking search order of the regex engine. -/
def firstSome : List α → (α → Option β) → Option β
  | [], _ => none
  | a :: as, f =>
    match f a with
    | some b => some b
    | none => firstSome as f

/-- The trailing `(.*)$` of the checkbox regexes: succeeds iff no line
terminator remains, capturing the rest of the line. -/
def dotStarEnd (cs : List Char) : Option (List Char) :=
  if cs.all isDotChar then some cs else none

/-- The tail `(?:\s*["'])?\s*(.*)$` that follows `\]` in the first two
checkbox regexes.  The optional quote group is tried greedily first. -/
def tailAfterBracket (cs : List Char) : Option (List Char) :=
  let withQuote := firstSome (wsDrops cs) (fun cs1 =>
    match cs1 with
    | c :: cs2 => if isQuoteChar c then firstSome (wsDrops cs2) dotStarEnd else none
    | [] => none)
  match withQuote with
  | some r => some r
  | none => firstSome (wsDrops cs) dotStarEnd

/-- `\s*([xX])?\s*\]` followed by the bracket tail: the part of the first
two checkbox regexes after the opening `[`.  Returns the truthiness of the
capture `([xX])` and the rest capture. -/
def afterOpenBracket (cs : List Char) : Option (Bool × List Char) :=
  firstSome (wsDrops cs) (fun cs1 =>
    let withX :=
      match cs1 with
      | c :: cs2 =>
        if c == 'x' || c == 'X' then
          firstSome (wsDrops cs2) (fun cs3 =>
            match cs3 with
            | b :: cs4 => if b == ']' then (tailAfterBracket cs4).map (fun r => (true, r)) else none
            | [] => none)
        else none
      | [] => none
    match withX with
    | some v => some v
    | none =>
      firstSome (wsDrops cs1) (fun cs3 =>
        match cs3 with
        | b :: cs4 => if b == ']' then (tailAfterBracket cs4).map (fun r => (false, r)) else none
        | [] => none))

/-- `\s*(?:["']\s*)?\[` followed by the bracket body: what remains of the
first checkbox regex after the optional leading `[-*]`. -/
def afterListMarker (ind : List Char) (cs : List Char) : Option (List Char × Bool × List Char) :=
  firstSome (wsDrops cs) (fun cs1 =>
    let withQ :=
      match cs1 with
      | c :: cs2 =>
        if isQuoteChar c then
          firstSome (wsDrops cs2) (fun cs3 =>
            match cs3 with
            | b :: cs4 => if b == '[' then (afterOpenBracket cs4).map (fun (q : Bool × List Char) => (ind, q.1, q.2)) else none
            | [] => none)
        else none
      | [] => none
    match withQ with
    | some v => some v
    | none =>
      match cs1 with
      | b :: cs4 => if b == '[' then (afterOpenBracket cs4).map (fun (q : Bool × List Char) => (ind, q.1, q.2)) else none
      | [] => none)

/-- The first checkbox regex
`^(\s*)[-*]?\s*(?:["']\s*)?\[\s*([xX])?\s*\](?:\s*["'])?\s*(.*)$`
as a backtracking matcher returning (indent, checked, rest). -/
def matchCheckbox (line : List Char) : Option (List Char × Bool × List Char) :=
  firstSome (wsTakes line) (fun p =>
    let ind := p.1
    let afterDash :=
      match p.2 with
      | c :: cs2 => if c == '-' || c == '*' then afterListMarker ind cs2 else none
      | [] => none
    match afterDash with
    | some v => some v
    | none => afterListMarker ind p.2)

/-- The second checkbox regex (identical to the first except that the list
marker `[-*]` is mandatory)
`^(\s*)[-*]\s*(?:["']\s*)?\[\s*([xX])?\s*\](?:\s*["'])?\s*(.*)$`. -/
def matchCheckboxListed (line : List Char) : Option (List Char × Bool × List Char) :=
  firstSome (wsTakes line) (fun p =>
    match p.2 with
    | c :: cs2 => if c == '-' || c == '*' then afterListMarker p.1 cs2 else none
    | [] => none)

/-- The third checkbox regex `^(\s*)[-*]\s*\[\s*([xX ])\s*\]\s*(.*)$`,
returning (indent, box character, rest). -/
def matchSimpleBox (line : List Char) : Option (List Char × Char × List Char) :=
  firstSome (wsTakes line) (fun p =>
    match p.2 with
    | c :: cs2 =>
      if c == '-' || c == '*' then
        firstSome (wsDrops cs2) (fun cs3 =>
          match cs3 with
          | b :: cs4 =>
            if b == '[' then
              firstSome (wsDrops cs4) (fun cs5 =>
                match cs5 with
                | x :: cs6 =>
                  if x == 'x' || x == 'X' || x == ' ' then
                    firstSome (wsDrops cs6) (fun cs7 =>
                      match cs7 with
                      | r :: cs8 =>
                        if r == ']' then
                          firstSome (wsDrops cs8) (fun cs9 =>
                            (dotStarEnd cs9).map (fun rest => (p.1, x, rest)))
                        else none
                      | [] => none)
                  else none
                | [] => none)
            else none
          | [] => none)
      else none
    | [] => none)

/-- Rebuild the canonical checkbox line `${indent}- [${checked}] ${rest}`. -/
def canonicalBox (ind : List Char) (checked : Bool) (rest : List Char) : List Char :=
  ind ++ ('-' :: ' ' :: '[' :: (if checked then 'x' else ' ') :: ']' :: ' ' :: rest)

/-- One line of `normalizeCheckboxes`: character normalisation, then the
three regex branches in source order (the first two `.trimEnd()` their
output, the third is a plain `replace`). -/
def transformLine (raw : List Char) : List Char :=
  let line := charNormalize raw
  match matchCheckbox line with
  | some (ind, chk, rest) => jsTrimEndL (canonicalBox ind chk rest)
  | none =>
    match matchCheckboxListed line with
    | some (ind, chk, rest) => jsTrimEndL (canonicalBox ind chk rest)
    | none =>
      match matchSimpleBox line with
      | some (ind, x, rest) => canonicalBox ind (x == 'x' || x == 'X') rest
      | none => line

/-- `normalizeCheckboxes` from `src/markdown.ts`: split on `/\r?\n/`,
normalise every line, join with `\n`. -/
def normalizeCheckboxes (s : String) : String :=
  String.mk (joinLinesJS ((splitLinesJS s.toList).map transformLine))

/-! ### Retention enforcement (`RecorderService.enforceRetention`) -/

/-- One entry of the scanned directory: a file name and its modification
time (`stat.mtimeMs || stat.ctimeMs || 0`; 0 when `statSync` failed). -/
structure DirEntry where
  name : List Char
  mtime : Int
deriving DecidableEq, Repr

/-- The filter `/\.mp3$/i`: the name ends with `.mp3` case-insensitively. -/
def isMp3L (l : List Char) : Bool :=
  decide (4 ≤ l.length) && ((l.drop (l.length - 4)).map Char.toLower == ['.', 'm', 'p', '3'])

/-- `name.replace(/\.mp3$/i, "")`: drop the extension when present. -/
def mp3Stem (l : List Char) : List Char :=
  if isMp3L l then l.take (l.length - 4) else l

/-- Insert into a list sorted by decreasing `mtime`
(the comparator `(a,b) => b.mtime - a.mtime`). -/
def insertByMtime (e : DirEntry) : List DirEntry → List DirEntry
  | [] => [e]
  | f :: fs => if f.mtime ≤ e.mtime then e :: f :: fs else f :: insertByMtime e fs

/-- Sort a directory listing by decreasing `mtime`. -/
def sortByMtimeDesc : List DirEntry → List DirEntry
  | [] => []
  | e :: es => insertByMtime e (sortByMtimeDesc es)

/-- `RecorderService.enforceRetention` as a pure function of the retention
cap and the listing of the scanned directory.  `cap = none` models a
non-numeric `maxRecordingsKept` setting (`Number(...)` returned `NaN`, so
`isFinite` fails).  Returns the listing after the deletions: for every
`.mp3` entry beyond the `cap` most recent ones, the audio file and the
same-stem `.txt` and `.log` artifacts are unlinked. -/
def enforceRetention (cap : Option Int) (dir : List DirEntry) : List DirEntry :=
  match cap with
  | none => dir
  | some capN =>
    if capN ≤ 0 then dir
    else
      let entries := sortByMtimeDesc (dir.filter (fun e => isMp3L e.name))
      if entries.length ≤ capN.toNat then dir
      else
        let toDelete := entries.drop capN.toNat
        let deletedNames :=
          (toDelete.map (fun e =>
            [e.name, mp3Stem e.name ++ ".txt".toList, mp3Stem e.name ++ ".log".toList])).flatten
        dir.filter (fun e => !(deletedNames.contains e.name))

/-! ### Device resolution (`RecorderService.resolveFfmpegInput`, avfoundation) -/

/-- One device returned by `scanDevices`: its kind (`type` in the source,
`"audio"` or `"video"`), its ffmpeg address (`name`, e.g. `":0"`), and its
human-readable label (e.g. `"0: MacBook Pro Microphone"`). -/
structure AvDevice where
  kind : String
  name : String
  label : String
deriving DecidableEq, Repr

/-- The label normaliser `(s) => s.replace(/^\d+:\s*/, "").trim()` from
`resolveFfmpegInput`. -/
def stripIndexLabel (s : String) : String :=
  let l := s.toList
  let ds := l.takeWhile Char.isDigit
  let l2 :=
    if ds.length ≠ 0 && ((l.drop ds.length).head? == some ':') then
      (l.drop (ds.length + 1)).dropWhile isSpaceJS
    else l
  String.mk (jsTrimL l2)

/-- `normalizeIndexish`: keep `":N"`, turn a bare number `N` into `":N"`,
reject anything else. -/
def normalizeIndexish (v : String) : String :=
  if v == "" then ""
  else
    let l := v.toList
    if l.head? == some ':' && decide (2 ≤ l.length) && (l.drop 1).all Char.isDigit then v
    else if l.all Char.isDigit then ":" ++ v
    else ""

/-- `findByLabel`: first audio device whose stripped label equals the
stripped saved label. -/
def findByLabel (audioDevices : List AvDevice) (label : String) : Option AvDevice :=
  audioDevices.find? (fun d => stripIndexLabel d.label == label)

/-- `findByName`: first audio device with the given ffmpeg address. -/
def findByName (audioDevices : List AvDevice) (n : String) : Option AvDevice :=
  audioDevices.find? (fun d => d.name == n)

/-- `findByIndexString`: first audio device whose address is `":idxStr"`. -/
def findByIndexString (audioDevices : List AvDevice) (idxStr : String) : Option AvDevice :=
  audioDevices.find? (fun d => d.name == ":" ++ idxStr)

/-- The microphone branch of `resolveFfmpegInput` for the avfoundation
format: priority label → saved name → normalized saved index → `":0"`.
`savedDevice`/`savedLabel` are the persisted `ffmpegMicDevice` /
`ffmpegMicLabel` settings, `devices` the fresh `scanDevices` result. -/
def resolveMicSpec (savedDevice savedLabel : String) (devices : List AvDevice) : String :=
  let audioDevices := devices.filter (fun d => d.kind == "audio")
  let micSaved := jsTrim savedDevice
  let micLabelSaved := stripIndexLabel savedLabel
  let micByLabel := if micLabelSaved ≠ "" then findByLabel audioDevices micLabelSaved else none
  let micSavedNormalized := normalizeIndexish micSaved
  let micByName := if micSaved ≠ "" then findByName audioDevices micSaved else none
  let micByIdx :=
    if micSavedNormalized ≠ "" then
      match findByName audioDevices micSavedNormalized with
      | some d => some d
      | none => findByIndexString audioDevices (micSavedNormalized.drop 1)
    else none
  match micByLabel with
  | some d => d.name
  | none =>
    match micByName with
    | some d => d.name
    | none =>
      match micByIdx with
      | some d => d.name
      | none => ":0"

/-- The system-audio branch of `resolveFfmpegInput` for avfoundation: same
strategy as the microphone but only when something is configured, and the
final fallback is the empty spec (omit the input). -/
def resolveSystemSpec (savedDevice savedLabel : String) (devices : List AvDevice) : String :=
  let audioDevices := devices.filter (fun d => d.kind == "audio")
  let sysSaved := jsTrim savedDevice
  let sysLabelSaved := stripIndexLabel savedLabel
  if sysLabelSaved == "" && sysSaved == "" then ""
  else
    let sysByLabel := if sysLabelSaved ≠ "" then findByLabel audioDevices sysLabelSaved else none
    let sysSavedNormalized := normalizeIndexish sysSaved
    let sysByName := if sysSaved ≠ "" then findByName audioDevices sysSaved else none
    let sysByIdx :=
      if sysSavedNormalized ≠ "" then
        match findByName audioDevices sysSavedNormalized with
        | some d => some d
        | none => findByIndexString audioDevices (sysSavedNormalized.drop 1)
      else none
    match sysByLabel with
    | some d => d.name
    | none =>
      match sysByName with
      | some d => d.name
      | none =>
        match sysByIdx with
        | some d => d.name
        | none => ""

/-! ### The recorder phase machine (`RecorderService`, live-watcher variant) -/

/-- `RecorderPhase` from the source. -/
inductive RecorderPhase
  | idle | recording | transcribing | summarizing | error | done
deriving DecidableEq, Repr

/-- The mutable fields of `RecorderService` relevant to the lifecycle
claims.  `startTs = none` models `null`; `elapsedTimerActive` models
`elapsedIntervalId !== null`. -/
structure RecorderState where
  phase : RecorderPhase
  startTs : Option Nat
  elapsedTimerActive : Bool
  ffmpegChildAlive : Bool
  explicitStopRequested : Bool
  audioDir : String
  audioPath : String
  transcriptPath : String
  logPath : String
deriving DecidableEq, Repr

/-- The freshly constructed service. -/
def initialRecorder : RecorderState :=
  { phase := .idle, startTs := none, elapsedTimerActive := false,
    ffmpegChildAlive := false, explicitStopRequested := false,
    audioDir := "", audioPath := "", transcriptPath := "", logPath := "" }

/-- Observable events the controller hands to its collaborators: the
`onPhaseChange` / `onElapsed` / `onError` / `onInfo` callbacks, the spawn
of the capture subprocess, the call into the summarization backend, and
note creation. -/
inductive Emit
  | phaseChange (p : RecorderPhase)
  | elapsed (seconds : Nat)
  | errorMsg (msg : String)
  | infoMsg (msg : String)
  | spawnFfmpeg
  | invokeSummarizeBackend
  | noteCreated
deriving DecidableEq, Repr

/-- The body of the `setInterval` callback installed by
`startElapsedTimer`: it fires only while the interval is installed, and
bails out when `startTs` is falsy (`null` or `0`). -/
def elapsedTick (s : RecorderState) (now : Nat) : List Emit :=
  if s.elapsedTimerActive then
    match s.startTs with
    | none => []
    | some t => if t == 0 then [] else [Emit.elapsed ((now - t) / 1000)]
  else []

/-- The persisted settings consumed by the lifecycle functions. -/
structure SettingsModel where
  ffmpegPath : String
  ffmpegInputFormat : String
  ffmpegMicDevice : String
  ffmpegMicLabel : String
  ffmpegSystemDevice : String
  ffmpegSystemLabel : String
deriving DecidableEq, Repr

/-- Environment of one `start()` call: what the host platform and clock
return.  `basePath` is the vault adapter base path (empty ⇒
`prepareAudioPath` throws), `baseName` the timestamped bundle name computed
from the wall clock, `devices` the avfoundation scan result, `now` the
value of `Date.now()` when the elapsed timer starts. -/
structure StartEnv where
  basePath : String
  configDir : String
  pluginId : String
  baseName : String
  platform : String
  devices : List AvDevice
  now : Nat

/-- `prepareAudioPath`: throws when the vault base path cannot be
determined, otherwise fills in the per-session bundle directory and the
audio/transcript/log paths inside it. -/
def prepareAudioPath (s : RecorderState) (env : StartEnv) : Except String RecorderState :=
  if env.basePath == "" then
    .error "Unable to determine vault base path (Desktop only)"
  else
    let recDir := env.basePath ++ "/" ++ env.configDir ++ "/plugins/" ++ env.pluginId ++ "/recordings"
    let baseDir := recDir ++ "/" ++ env.baseName
    .ok { s with
      audioDir := baseDir,
      audioPath := baseDir ++ "/" ++ env.baseName ++ ".mp3",
      transcriptPath := baseDir ++ "/" ++ env.baseName ++ ".txt",
      logPath := baseDir ++ "/" ++ env.baseName ++ ".log" }

/-- `ensureDshowPrefix` from the dshow branch. -/
def ensureDshow (v : String) : String :=
  if v == "" then v
  else
    let l := v.toList.map Char.toLower
    if l.take 6 == "audio=".toList || l.take 6 == "video=".toList || l.take 8 == "@device_".toList then v
    else "audio=" ++ v

/-- The input format after the `"auto"` default is resolved by platform. -/
def effectiveFormat (settings : SettingsModel) (platform : String) : String :=
  if settings.ffmpegInputFormat == "auto" then
    if platform == "darwin" then "avfoundation"
    else if platform == "win32" then "dshow"
    else "pulse"
  else settings.ffmpegInputFormat

/-- The microphone spec `resolveFfmpegInput` hands to the argument builder
(all three format branches). -/
def resolvedMic (settings : SettingsModel) (env : StartEnv) : String :=
  let fmt := effectiveFormat settings env.platform
  if fmt == "avfoundation" then
    resolveMicSpec settings.ffmpegMicDevice settings.ffmpegMicLabel env.devices
  else if fmt == "dshow" then
    ensureDshow (if jsTrim settings.ffmpegMicDevice == "" then "audio=Microphone (default)"
                 else jsTrim settings.ffmpegMicDevice)
  else if jsTrim settings.ffmpegMicDevice == "" then "default" else jsTrim settings.ffmpegMicDevice

/-- The system-audio spec `resolveFfmpegInput` hands to the argument
builder. -/
def resolvedSystem (settings : SettingsModel) (env : StartEnv) : String :=
  let fmt := effectiveFormat settings env.platform
  if fmt == "avfoundation" then
    resolveSystemSpec settings.ffmpegSystemDevice settings.ffmpegSystemLabel env.devices
  else if fmt == "dshow" then
    if jsTrim settings.ffmpegSystemDevice == "" then ""
    else ensureDshow (jsTrim settings.ffmpegSystemDevice)
  else jsTrim settings.ffmpegSystemDevice

/-- `beginRecording`: throws on a missing ffmpeg path or an empty input
list; otherwise resolves devices, moves the phase to `recording`, starts
the elapsed timer and spawns the capture subprocess. -/
def beginRecording (s : RecorderState) (settings : SettingsModel) (env : StartEnv) :
    Except String (RecorderState × List Emit) :=
  if settings.ffmpegPath == "" then .error "FFmpeg path not configured"
  else
    let micSpec := resolvedMic settings env
    let sysSpec := resolvedSystem settings env
    if micSpec == "" && sysSpec == "" then
      .error "No FFmpeg input device configured. Set at least the microphone."
    else
      .ok ({ s with phase := .recording, startTs := some env.now,
                    elapsedTimerActive := true, ffmpegChildAlive := true },
           [Emit.phaseChange .recording, Emit.spawnFfmpeg])

/-- `RecorderService.start()`: the phase guard, then `prepareAudioPath` and
`beginRecording` inside the catch-all that reports the error and moves the
phase to `error`. -/
def startRecorder (s : RecorderState) (settings : SettingsModel) (env : StartEnv) :
    RecorderState × List Emit :=
  if s.phase ≠ .idle ∧ s.phase ≠ .error ∧ s.phase ≠ .done then (s, [])
  else
    match prepareAudioPath s env with
    | .error msg => ({ s with phase := .error }, [Emit.errorMsg msg, Emit.phaseChange .error])
    | .ok s1 =>
      match beginRecording s1 settings env with
      | .error msg => ({ s1 with phase := .error }, [Emit.errorMsg msg, Emit.phaseChange .error])
      | .ok v => v

/-- `arr.slice(-n)` (the last `n` elements, or all of them when fewer). -/
def lastSlice (n : Nat) (l : List (List Char)) : List (List Char) :=
  l.drop (l.length - n)

/-- The `close` handler installed on the capture subprocess in
`beginRecording`: an exit attributable to an explicit stop request or to
SIGINT/SIGTERM/SIGKILL is logged and never treated as an error; otherwise a
non-zero exit while still `recording` surfaces the last 8 stderr lines and
moves the phase to `error`. -/
def onFfmpegClose (s : RecorderState) (code : Option Int) (signal : Option String)
    (ffErr : String) : RecorderState × List Emit :=
  let userStop := s.explicitStopRequested || signal == some "SIGINT" ||
    signal == some "SIGTERM" || signal == some "SIGKILL"
  if userStop then
    ({ s with explicitStopRequested := false, ffmpegChildAlive := false }, [])
  else if s.phase == .recording && code.getD 0 ≠ 0 then
    let tail := String.mk (joinLinesJS (lastSlice 8 (splitLinesJS ffErr.toList)))
    let codeStr := match code with | some c => toString c | none => "null"
    ({ s with phase := .error, explicitStopRequested := false, ffmpegChildAlive := false },
     [Emit.errorMsg ("FFmpeg exited with code " ++ codeStr ++ ".\n" ++ tail),
      Emit.phaseChange .error])
  else
    ({ s with explicitStopRequested := false, ffmpegChildAlive := false }, [])

/-- Number of UTF-16 code units of a character list (`String.length` in
JavaScript). -/
def jsUtf16Len (l : List Char) : Nat :=
  (l.map (fun c => if 0x10000 ≤ c.toNat then 2 else 1)).sum

/-- `transcript.trim().replace(/\s+/g, "").length`: the UTF-16 length after
removing every whitespace character. -/
def compactLen (s : String) : Nat :=
  jsUtf16Len (s.toList.filter (fun c => !isSpaceJS c))

/-- Outcome of the `summarize` tail of `stop()` (prompt selection, LLM call
and post-processing are collaborators): the post-processed summary was
non-empty and a note is created, or it was empty, or the call threw. -/
inductive SummarizeOutcome
  | produced (noteBody : String)
  | emptySummary
  | failed (msg : String)

/-- Environment of one `stop()` call: the transcript file contents after
the live watcher finalized (`none` when the file does not exist), and what
the summarization collaborators do. -/
structure StopEnv where
  transcriptAfterFinalize : Option String
  summaryOutcome : SummarizeOutcome

/-- `RecorderService.stop()` (live-watcher variant): the phase guard, the
explicit-stop flag, capture shutdown, timer stop, retention, watcher
finalize, then the short-transcript gate in front of `summarize`. -/
def stopRecorder (s : RecorderState) (env : StopEnv) : RecorderState × List Emit :=
  if s.phase ≠ .recording then (s, [])
  else
    let s1 := { s with explicitStopRequested := true, ffmpegChildAlive := false,
                       elapsedTimerActive := false }
    let s2 := { s1 with phase := .summarizing }
    let transcript := env.transcriptAfterFinalize.getD ""
    let emBase := [Emit.phaseChange .summarizing]
    if compactLen transcript < 150 then
      ({ s2 with phase := .done },
       emBase ++ [Emit.infoMsg "Transcription too short – summary skipped", Emit.phaseChange .done])
    else
      let em1 := emBase ++ [Emit.infoMsg "Summarizing...", Emit.phaseChange .summarizing,
                            Emit.invokeSummarizeBackend]
      match env.summaryOutcome with
      | .failed msg =>
        ({ s2 with phase := .error }, em1 ++ [Emit.errorMsg msg, Emit.phaseChange .error])
      | .emptySummary =>
        ({ s2 with phase := .done }, em1 ++ [Emit.infoMsg "Summary skipped", Emit.phaseChange .done])
      | .produced _ =>
        ({ s2 with phase := .done }, em1 ++ [Emit.noteCreated, Emit.phaseChange .done])

/-! ### The live segment watcher (`startLiveWatcher` / `handleNewLiveSegment` /
`stopLiveWatcherAndFinalize`) -/

/-- Configuration of one watcher session: the bundle directory and the
session base name, from which the segment pattern
`^${base}_seg_(\d{3})\.mp3$` is built. -/
structure WatchCfg where
  audioDir : String
  base : String

/-- Zero-padded 3-wide decimal (`String(i).padStart(3, "0")` for `i ≤ 999`,
and the `%03d` pattern ffmpeg expands). -/
def pad3 (n : Nat) : String :=
  if n < 10 then "00" ++ toString n
  else if n < 100 then "0" ++ toString n
  else toString n

/-- The file name of segment `i`. -/
def segFileName (cfg : WatchCfg) (i : Nat) : String :=
  cfg.base ++ "_seg_" ++ pad3 i ++ ".mp3"

/-- Match a file name against the live segment regex
`^${base}_seg_(\d{3})\.mp3$` and return the parsed index. -/
def segParse (cfg : WatchCfg) (filename : String) : Option Nat :=
  let pre := (cfg.base ++ "_seg_").toList
  let l := filename.toList
  if l.take pre.length == pre then
    match l.drop pre.length with
    | [d1, d2, d3, '.', 'm', 'p', '3'] =>
      if d1.isDigit && d2.isDigit && d3.isDigit then
        some ((d1.toNat - 48) * 100 + (d2.toNat - 48) * 10 + (d3.toNat - 48))
      else none
    | _ => none
  else none

/-- The watcher-side mutable state, together with the two ghost logs
`invoked` (every invocation of the transcription subprocess) and
`scheduled` (every scheduling of a debounce timer) that the idempotence
claims are about. -/
structure WatcherState where
  processed : List String
  pending : List String
  seenPaths : List String
  seenIndexes : List Nat
  maxIndexSeen : Int
  watcherClosed : Bool
  transcriptFile : String
  liveNote : String
  disk : List String
  invoked : List String
  scheduled : List String
deriving Repr

/-- The watcher state right after `startLiveWatcher` reset everything and
truncated the transcript file.  `disk` lists the segment audio files
currently present. -/
def winit (disk : List String) : WatcherState :=
  { processed := [], pending := [], seenPaths := [], seenIndexes := [],
    maxIndexSeen := -1, watcherClosed := false, transcriptFile := "",
    liveNote := "", disk := disk, invoked := [], scheduled := [] }

/-- `handleNewLiveSegment`: the processed-set test-and-insert happens
synchronously before the transcription subprocess is invoked; afterwards
(`res` is the transcription outcome, `none` when `transcribeChunk` threw)
text that is empty after trimming causes an early return, otherwise the
text is appended to the transcript file and the live note and the segment
audio file is unlinked. -/
def handleNewLiveSegment (s : WatcherState) (segPath : String) (res : Option String) :
    WatcherState :=
  if s.processed.contains segPath then s
  else
    let s1 := { s with processed := segPath :: s.processed, invoked := segPath :: s.invoked }
    match res with
    | none => s1
    | some text =>
      if jsTrim text == "" then s1
      else
        let sep := if jsTrim s1.transcriptFile ≠ "" then "\n\n" else ""
        { s1 with transcriptFile := s1.transcriptFile ++ sep ++ text,
                  liveNote := s1.liveNote ++ sep ++ text,
                  disk := s1.disk.erase segPath }

/-- The `fs.watch` callback from `startLiveWatcher`: parse the segment
index from the file name, record it, and — when a previous segment exists —
schedule a debounce timer for it unless it is already processed or already
pending.  A closed watcher delivers no events. -/
def fsEvent (cfg : WatchCfg) (s : WatcherState) (filename : String) : WatcherState :=
  if s.watcherClosed then s
  else if filename == "" then s
  else
    match segParse cfg filename with
    | none => s
    | some idx =>
      let segPath := cfg.audioDir ++ "/" ++ filename
      let s1 := { s with
        seenPaths := if s.seenPaths.contains segPath then s.seenPaths else segPath :: s.seenPaths,
        seenIndexes := if s.seenIndexes.contains idx then s.seenIndexes else idx :: s.seenIndexes,
        maxIndexSeen := max s.maxIndexSeen (Int.ofNat idx) }
      if 1 ≤ idx then
        let prevPath := cfg.audioDir ++ "/" ++ segFileName cfg (idx - 1)
        if !(s1.processed.contains prevPath) && !(s1.pending.contains prevPath) then
          { s1 with pending := prevPath :: s1.pending, scheduled := prevPath :: s1.scheduled }
        else s1
      else s1

/-- A debounce timer firing: the timer is removed from the pending map and
`handleNewLiveSegment` runs for its path. -/
def timerFire (s : WatcherState) (p : String) (res : Option String) : WatcherState :=
  if s.pending.contains p then
    handleNewLiveSegment { s with pending := s.pending.erase p } p res
  else s

/-- Insertion into a `≤`-sorted list of strings. -/
def insertStr (a : String) : List String → List String
  | [] => [a]
  | b :: bs => if a ≤ b then a :: b :: bs else b :: insertStr a bs

/-- `Array.prototype.sort()` on the segment names (lexicographic). -/
def sortStrings : List String → List String
  | [] => []
  | a :: as => insertStr a (sortStrings as)

/-- `stopLiveWatcherAndFinalize`: close the watcher, enumerate the
remaining files matching the segment regex in ascending name order,
synchronously process every one not already in the processed set, then
cancel all pending timers.  `files` is the `readdirSync` listing and `res`
the transcription outcome per path. -/
def stopLiveWatcherAndFinalize (cfg : WatchCfg) (s : WatcherState) (files : List String)
    (res : String → Option String) : WatcherState :=
  let s0 := { s with watcherClosed := true }
  let segs := sortStrings (files.filter (fun f => (segParse cfg f).isSome))
  let s1 := segs.foldl (fun acc f =>
    if acc.processed.contains (cfg.audioDir ++ "/" ++ f) then acc
    else handleNewLiveSegment acc (cfg.audioDir ++ "/" ++ f) (res (cfg.audioDir ++ "/" ++ f))) s0
  { s1 with pending := [] }

/-- One asynchronous turn of the event loop delivered to the watcher:
a filesystem notification, a debounce timer firing, or the stop-time
finalize pass. -/
inductive WEvent
  | fs (filename : String)
  | timer (p : String) (res : Option String)
  | finalize (files : List String) (res : String → Option String)

/-- Interpret one event. -/
def wstep (cfg : WatchCfg) (s : WatcherState) : WEvent → WatcherState
  | .fs f => fsEvent cfg s f
  | .timer p r => timerFire s p r
  | .finalize files r => stopLiveWatcherAndFinalize cfg s files r

/-- Run a whole event sequence. -/
def wrun (cfg : WatchCfg) (s : WatcherState) (evs : List WEvent) : WatcherState :=
  evs.foldl (wstep cfg) s

/-! ### Claim C2: phase legality of `start()` and `stop()` -/

/-- Claim C2: `stop()` issued while the phase is not `recording` returns
without changing the phase, the session fields or any external state, and
`start()` issued while the phase is not one of `idle`, `error`, `done`
likewise returns the state unchanged and emits nothing — so a second
active session can never be started over a running one. -/
theorem stop_start_phase_legality (s : RecorderState) (settings : SettingsModel)
    (env1 : StartEnv) (env2 : StopEnv) :
    (s.phase ≠ .recording → stopRecorder s env2 = (s, [])) ∧
    (s.phase ≠ .idle → s.phase ≠ .error → s.phase ≠ .done →
      startRecorder s settings env1 = (s, [])) := by
  constructor
  · intro h
    simp [stopRecorder, h]
  · intro h1 h2 h3
    simp [startRecorder, h1, h2, h3]

/-- Claim C2 witness: a freshly constructed service ignores `stop()`, and a
service in the `recording` phase ignores `start()`. -/
theorem stop_start_phase_legality_witness :
    stopRecorder initialRecorder ⟨none, .emptySummary⟩ = (initialRecorder, []) ∧
    startRecorder { initialRecorder with phase := .recording }
        ⟨"/usr/bin/ffmpeg", "auto", "", "", "", ""⟩
        ⟨"/vault", ".obsidian", "resonance", "rec_1", "darwin", [], 1000⟩ =
      ({ initialRecorder with phase := .recording }, []) := by
  exact ⟨(stop_start_phase_legality initialRecorder
            ⟨"/usr/bin/ffmpeg", "auto", "", "", "", ""⟩
            ⟨"/vault", ".obsidian", "resonance", "rec_1", "darwin", [], 1000⟩
            ⟨none, .emptySummary⟩).1 (by decide),
         (stop_start_phase_legality { initialRecorder with phase := .recording }
            ⟨"/usr/bin/ffmpeg", "auto", "", "", "", ""⟩
            ⟨"/vault", ".obsidian", "resonance", "rec_1", "darwin", [], 1000⟩
            ⟨none, .emptySummary⟩).2 (by decide) (by decide) (by decide)⟩

/-! ### Claim C3: exit-code policy of the capture subprocess -/

/-- Claim C3: when the capture subprocess closes, an exit attributable to
an intentional stop (the explicit-stop flag, or a SIGINT/SIGTERM/SIGKILL
termination) is never treated as an error regardless of exit code — the
phase is untouched and nothing is emitted; otherwise a non-zero exit while
the phase is still `recording` emits an error message consisting of the
exit code and the last 8 lines of the collected stderr, and moves the phase
to `error`. -/
theorem ffmpeg_close_policy (s : RecorderState) (code : Option Int) (signal : Option String)
    (ffErr : String) :
    ((s.explicitStopRequested = true ∨ signal = some "SIGINT" ∨ signal = some "SIGTERM" ∨
        signal = some "SIGKILL") →
      onFfmpegClose s code signal ffErr =
        ({ s with explicitStopRequested := false, ffmpegChildAlive := false }, [])) ∧
    (s.explicitStopRequested = false → signal ≠ some "SIGINT" → signal ≠ some "SIGTERM" →
      signal ≠ some "SIGKILL" → s.phase = .recording →
      ∀ c : Int, code = some c → c ≠ 0 →
      onFfmpegClose s code signal ffErr =
        ({ s with phase := .error, explicitStopRequested := false, ffmpegChildAlive := false },
         [Emit.errorMsg ("FFmpeg exited with code " ++ toString c ++ ".\n" ++
            String.mk (joinLinesJS (lastSlice 8 (splitLinesJS ffErr.toList)))),
          Emit.phaseChange .error])) := by
  constructor
  · intro h
    rcases h with h | h | h | h <;> simp [onFfmpegClose, h]
  · intro h1 h2 h3 h4 h5 c hc hc0
    simp [onFfmpegClose, h1, h2, h3, h4, h5, hc, hc0]

/-- Claim C3 witness: a signalled exit during recording is not an error,
and an unrequested exit with code 1 during recording is. -/
theorem ffmpeg_close_policy_witness :
    onFfmpegClose { initialRecorder with phase := .recording, elapsedTimerActive := true } (some 1) (some "SIGKILL") "x\ny" =
      ({ initialRecorder with phase := .recording, elapsedTimerActive := true, explicitStopRequested := false, ffmpegChildAlive := false }, []) ∧
    onFfmpegClose { initialRecorder with phase := .recording } (some 1) none "a\nb" =
      ({ initialRecorder with phase := .error, explicitStopRequested := false, ffmpegChildAlive := false },
       [Emit.errorMsg "FFmpeg exited with code 1.\na\nb", Emit.phaseChange .error]) := by
  constructor
  · exact (ffmpeg_close_policy { initialRecorder with phase := .recording, elapsedTimerActive := true }
      (some 1) (some "SIGKILL") "x\ny").1 (by decide)
  · have h := (ffmpeg_close_policy { initialRecorder with phase := .recording }
      (some 1) none "a\nb").2 rfl (by decide) (by decide) (by decide) rfl
      1 rfl (by decide)
    simpa using h

/-! ### Claim C5: short transcripts skip summarization -/

/-- Claim C5: when the transcript produced by the session has fewer than
150 characters after removing all whitespace, the stop flow never invokes
a summarization backend and never creates a note, and the phase still
reaches `done`. -/
theorem short_transcript_skip (s : RecorderState) (env : StopEnv)
    (hrec : s.phase = .recording)
    (hshort : compactLen (env.transcriptAfterFinalize.getD "") < 150) :
    (stopRecorder s env).1.phase = .done ∧
    Emit.invokeSummarizeBackend ∉ (stopRecorder s env).2 ∧
    Emit.noteCreated ∉ (stopRecorder s env).2 := by
  simp [stopRecorder, hrec, hshort]

/-- Claim C5 witness: a recording session whose transcript is `"too short"`
stops straight to `done` without a backend call. -/
theorem short_transcript_skip_witness :
    ((stopRecorder { initialRecorder with phase := .recording }
        ⟨some "too short", .produced "note"⟩).1.phase = RecorderPhase.done) ∧
    Emit.invokeSummarizeBackend ∉ (stopRecorder { initialRecorder with phase := .recording }
        ⟨some "too short", .produced "note"⟩).2 ∧
    Emit.noteCreated ∉ (stopRecorder { initialRecorder with phase := .recording }
        ⟨some "too short", .produced "note"⟩).2 :=
  short_transcript_skip _ _ (by decide) (by decide)

/-! ### Claim C7: configuration errors detected by `start()` -/

/-- Claim C7 counterexample: a missing capture-executable path detected by
`start()` does change the state — the phase moves from `idle` to `error`,
so "the phase after `start()` returns is the same as the phase before the
call" is false. -/
theorem start_config_error_changes_phase :
    (startRecorder { initialRecorder with phase := .idle }
        ⟨"", "auto", "", "", "", ""⟩
        ⟨"/vault", ".obsidian", "resonance", "rec_1", "darwin", [], 1000⟩).1.phase ≠
      RecorderPhase.idle := by decide

/-- Claim C7 (amended): for a configuration error detectable before the
session starts (a missing capture-executable path), `start()` reports the
error to the user and starts no session — no capture subprocess is spawned
and the phase never becomes `recording` — but the phase transitions to
`error` rather than staying unchanged. -/
theorem start_config_error_reports_and_aborts (s : RecorderState) (settings : SettingsModel)
    (env : StartEnv)
    (hphase : s.phase = .idle ∨ s.phase = .error ∨ s.phase = .done)
    (hcfg : settings.ffmpegPath = "")
    (hbase : env.basePath ≠ "") :
    (startRecorder s settings env).1.phase = .error ∧
    Emit.errorMsg "FFmpeg path not configured" ∈ (startRecorder s settings env).2 ∧
    Emit.spawnFfmpeg ∉ (startRecorder s settings env).2 ∧
    Emit.phaseChange .recording ∉ (startRecorder s settings env).2 := by
  have hb : (env.basePath == "") = false := by
    simpa using hbase
  rcases hphase with h | h | h <;>
    simp [startRecorder, prepareAudioPath, beginRecording, h, hb, hcfg]

/-- Claim C7 witness: the amended behaviour at a concrete `idle` service
with an empty ffmpeg path. -/
theorem start_config_error_reports_and_aborts_witness :
    ((startRecorder initialRecorder ⟨"", "auto", "", "", "", ""⟩
        ⟨"/vault", ".obsidian", "resonance", "rec_1", "darwin", [], 1000⟩).1.phase =
      RecorderPhase.error) ∧
    Emit.errorMsg "FFmpeg path not configured" ∈
      (startRecorder initialRecorder ⟨"", "auto", "", "", "", ""⟩
        ⟨"/vault", ".obsidian", "resonance", "rec_1", "darwin", [], 1000⟩).2 ∧
    Emit.spawnFfmpeg ∉
      (startRecorder initialRecorder ⟨"", "auto", "", "", "", ""⟩
        ⟨"/vault", ".obsidian", "resonance", "rec_1", "darwin", [], 1000⟩).2 ∧
    Emit.phaseChange .recording ∉
      (startRecorder initialRecorder ⟨"", "auto", "", "", "", ""⟩
        ⟨"/vault", ".obsidian", "resonance", "rec_1", "darwin", [], 1000⟩).2 :=
  start_config_error_reports_and_aborts _ _ _ (Or.inl rfl) rfl (by decide)

/-! ### Claim C8: elapsed notifications outside the `recording` phase -/

/-- Claim C8 (code-bug demonstration): after a successful `start()` a
capture-process crash (unrequested exit, code 1) moves the phase to
`error`, but the elapsed interval is never cancelled on that path, so the
next tick still emits an elapsed-seconds notification while the phase is
`error` — contradicting "elapsed notifications fire only while
recording". -/
theorem elapsed_fires_in_error_phase :
    ((onFfmpegClose ((startRecorder initialRecorder
          ⟨"/usr/bin/ffmpeg", "auto", "", "", "", ""⟩
          ⟨"/vault", ".obsidian", "resonance", "rec_1", "darwin", [], 1000⟩).1)
        (some 1) none "boom").1.phase = RecorderPhase.error) ∧
    elapsedTick ((onFfmpegClose ((startRecorder initialRecorder
          ⟨"/usr/bin/ffmpeg", "auto", "", "", "", ""⟩
          ⟨"/vault", ".obsidian", "resonance", "rec_1", "darwin", [], 1000⟩).1)
        (some 1) none "boom").1) 2000 = [Emit.elapsed 1] := by decide

/-! ### Claim C10: live segments whose transcription is empty -/

/-- Claim C10: when transcription of a live segment succeeds but the text
is empty after trimming, `handleNewLiveSegment` returns without touching
the transcript file, the live note or the segment audio file on disk; the
segment file is deleted exactly when the text is non-empty; and in both
cases the path is marked processed, so a repeated call is a no-op and the
segment is never retried. -/
theorem empty_segment_text_keeps_file (s : WatcherState) (p : String) (text : String)
    (hnew : p ∉ s.processed) :
    (jsTrim text = "" →
      (handleNewLiveSegment s p (some text)).transcriptFile = s.transcriptFile ∧
      (handleNewLiveSegment s p (some text)).liveNote = s.liveNote ∧
      (handleNewLiveSegment s p (some text)).disk = s.disk) ∧
    (jsTrim text ≠ "" →
      (handleNewLiveSegment s p (some text)).disk = s.disk.erase p) ∧
    p ∈ (handleNewLiveSegment s p (some text)).processed ∧
    (∀ res2, handleNewLiveSegment (handleNewLiveSegment s p (some text)) p res2 =
      handleNewLiveSegment s p (some text)) := by
  refine ⟨?_, ?_, ?_, ?_⟩
  · intro h
    simp [handleNewLiveSegment, hnew, h]
  · intro h
    simp [handleNewLiveSegment, hnew, h]
  · by_cases h : jsTrim text = "" <;> simp [handleNewLiveSegment, hnew, h]
  · intro res2
    by_cases h : jsTrim text = "" <;>
      simp [handleNewLiveSegment, hnew, h]

/-- Claim C10 witness: a fresh watcher state, a silent segment and a voiced
segment. -/
theorem empty_segment_text_keeps_file_witness :
    ((handleNewLiveSegment (winit ["d/s_seg_000.mp3"]) "d/s_seg_000.mp3" (some "  ")).disk =
      ["d/s_seg_000.mp3"]) ∧
    ((handleNewLiveSegment (winit ["d/s_seg_000.mp3"]) "d/s_seg_000.mp3" (some "hi")).disk = []) := by
  constructor
  · exact ((empty_segment_text_keeps_file (winit ["d/s_seg_000.mp3"]) "d/s_seg_000.mp3" "  "
      (by decide)).1 (by decide)).2.2
  · have h := (empty_segment_text_keeps_file (winit ["d/s_seg_000.mp3"]) "d/s_seg_000.mp3" "hi"
      (by decide)).2.1 (by decide)
    simpa using h

/-! ### Claim C6: device resolution by label with fallbacks -/

/-- When the filter keeps exactly one element, `find?` with the same
predicate returns it. -/
theorem find?_of_filter_singleton {α : Type} (p : α → Bool) (l : List α) (d : α)
    (h : l.filter p = [d]) : l.find? p = some d := by
  induction l with
  | nil => simp at h
  | cons a as ih =>
    by_cases ha : p a
    · rw [List.filter_cons_of_pos ha] at h
      rw [List.cons.injEq] at h
      rw [List.find?_cons_of_pos _ ha, h.1]
    · rw [List.filter_cons_of_neg ha] at h
      rw [List.find?_cons_of_neg _ ha]
      exact ih h

/-- Claim C6: for the volatile-addressing (avfoundation) backend, a saved
device label that — after stripping any numeric prefix — matches exactly
one audio device of the fresh scan resolves to that device's current
address, regardless of how its numeric index drifted; and when no label
matches, resolution falls back in order to the saved raw identifier, then
to the normalized numeric index, then to the default input `":0"`. -/
theorem device_resolution_stability (savedDevice savedLabel : String) (devices : List AvDevice) :
    (∀ d : AvDevice,
      (devices.filter (fun e => e.kind == "audio")).filter
          (fun e => stripIndexLabel e.label == stripIndexLabel savedLabel) = [d] →
      stripIndexLabel savedLabel ≠ "" →
      resolveMicSpec savedDevice savedLabel devices = d.name) ∧
    ((∀ e ∈ devices.filter (fun e => e.kind == "audio"),
        stripIndexLabel e.label ≠ stripIndexLabel savedLabel) →
      ((∀ d : AvDevice, jsTrim savedDevice ≠ "" →
          findByName (devices.filter (fun e => e.kind == "audio")) (jsTrim savedDevice) = some d →
          resolveMicSpec savedDevice savedLabel devices = d.name) ∧
       (∀ d : AvDevice,
          (jsTrim savedDevice = "" ∨
            findByName (devices.filter (fun e => e.kind == "audio")) (jsTrim savedDevice) = none) →
          normalizeIndexish (jsTrim savedDevice) ≠ "" →
          findByName (devices.filter (fun e => e.kind == "audio"))
              (normalizeIndexish (jsTrim savedDevice)) = some d →
          resolveMicSpec savedDevice savedLabel devices = d.name) ∧
       ((jsTrim savedDevice = "" ∨
           findByName (devices.filter (fun e => e.kind == "audio")) (jsTrim savedDevice) = none) →
        (normalizeIndexish (jsTrim savedDevice) = "" ∨
          (findByName (devices.filter (fun e => e.kind == "audio"))
              (normalizeIndexish (jsTrim savedDevice)) = none ∧
           findByIndexString (devices.filter (fun e => e.kind == "audio"))
              ((normalizeIndexish (jsTrim savedDevice)).drop 1) = none)) →
        resolveMicSpec savedDevice savedLabel devices = ":0"))) := by
  constructor
  · intro d hfilter htarget
    have hfind : findByLabel (devices.filter (fun e => e.kind == "audio"))
        (stripIndexLabel savedLabel) = some d :=
      find?_of_filter_singleton _ _ _ hfilter
    simp only [resolveMicSpec, if_pos htarget, hfind]
  · intro H0
    have hlab : findByLabel (devices.filter (fun e => e.kind == "audio"))
        (stripIndexLabel savedLabel) = none := by
      unfold findByLabel
      rw [List.find?_eq_none]
      intro x hx
      simpa using H0 x hx
    have hlabITE :
        (if stripIndexLabel savedLabel ≠ "" then
          findByLabel (devices.filter (fun e => e.kind == "audio")) (stripIndexLabel savedLabel)
         else none) = none := by
      split <;> simp [hlab]
    refine ⟨?_, ?_, ?_⟩
    · intro d hms hname
      simp only [resolveMicSpec, hlabITE, if_pos hms, hname]
    · intro d hnoname hnorm hidx
      have hnameITE :
          (if jsTrim savedDevice ≠ "" then
            findByName (devices.filter (fun e => e.kind == "audio")) (jsTrim savedDevice)
           else none) = none := by
        rcases hnoname with h | h
        · simp [h]
        · split <;> simp [h]
      simp only [resolveMicSpec, hlabITE, hnameITE, if_pos hnorm, hidx]
    · intro hnoname hnoidx
      have hnameITE :
          (if jsTrim savedDevice ≠ "" then
            findByName (devices.filter (fun e => e.kind == "audio")) (jsTrim savedDevice)
           else none) = none := by
        rcases hnoname with h | h
        · simp [h]
        · split <;> simp [h]
      have hidxITE :
          (if normalizeIndexish (jsTrim savedDevice) ≠ "" then
            match findByName (devices.filter (fun e => e.kind == "audio"))
                (normalizeIndexish (jsTrim savedDevice)) with
            | some d => some d
            | none => findByIndexString (devices.filter (fun e => e.kind == "audio"))
                ((normalizeIndexish (jsTrim savedDevice)).drop 1)
           else none) = none := by
        rcases hnoidx with h | h
        · simp [h]
        · split
          · simp [h.1, h.2]
          · rfl
      simp only [resolveMicSpec, hlabITE, hnameITE, hidxITE]

/-- Claim C6 witness: a saved label `"1: USB Mic"` whose device drifted to
index 2 still resolves to `":2"`; with no matching label or identifier the
default `":0"` is chosen. -/
theorem device_resolution_stability_witness :
    resolveMicSpec ":1" "1: USB Mic"
      [⟨"audio", ":2", "2: USB Mic"⟩, ⟨"audio", ":0", "0: Built-in"⟩] = ":2" ∧
    resolveMicSpec "zzz" "none saved" [⟨"audio", ":0", "0: Built-in"⟩] = ":0" := by
  constructor
  · exact (device_resolution_stability ":1" "1: USB Mic"
      [⟨"audio", ":2", "2: USB Mic"⟩, ⟨"audio", ":0", "0: Built-in"⟩]).1
      ⟨"audio", ":2", "2: USB Mic"⟩ (by decide) (by decide)
  · exact (((device_resolution_stability "zzz" "none saved"
      [⟨"audio", ":0", "0: Built-in"⟩]).2 (by decide)).2.2 (Or.inr (by decide)) (Or.inl (by decide)))

/-! ### Claim C4: retention enforcement -/

/-- Inserting into the mtime-sorted list is a permutation of consing. -/
theorem insertByMtime_perm (e : DirEntry) (l : List DirEntry) :
    List.Perm (insertByMtime e l) (e :: l) := by
  induction l with
  | nil => exact List.Perm.refl _
  | cons f fs ih =>
    unfold insertByMtime
    split
    · exact List.Perm.refl _
    · exact List.Perm.trans (List.Perm.cons f ih) (List.Perm.swap e f fs)

/-- The mtime sort permutes its input. -/
theorem sortByMtimeDesc_perm (l : List DirEntry) : List.Perm (sortByMtimeDesc l) l := by
  induction l with
  | nil => exact List.Perm.refl _
  | cons e es ih =>
    exact List.Perm.trans (insertByMtime_perm e (sortByMtimeDesc es)) (List.Perm.cons e ih)

/-- Insertion preserves descending sortedness by mtime. -/
theorem insertByMtime_pairwise (e : DirEntry) (l : List DirEntry)
    (h : l.Pairwise (fun a b => b.mtime ≤ a.mtime)) :
    (insertByMtime e l).Pairwise (fun a b => b.mtime ≤ a.mtime) := by
  induction l with
  | nil => simp [insertByMtime]
  | cons f fs ih =>
    rw [List.pairwise_cons] at h
    unfold insertByMtime
    split
    · rename_i hle
      rw [List.pairwise_cons]
      refine ⟨?_, List.pairwise_cons.mpr h⟩
      intro b hb
      rcases List.mem_cons.mp hb with rfl | hb2
      · exact hle
      · exact le_trans (h.1 b hb2) hle
    · rename_i hgt
      push_neg at hgt
      rw [List.pairwise_cons]
      refine ⟨?_, ih h.2⟩
      intro b hb
      rcases List.mem_cons.mp ((insertByMtime_perm e fs).mem_iff.mp hb) with rfl | hb2
      · exact le_of_lt hgt
      · exact h.1 b hb2

/-- The mtime sort is descending. -/
theorem sortByMtimeDesc_pairwise (l : List DirEntry) :
    (sortByMtimeDesc l).Pairwise (fun a b => b.mtime ≤ a.mtime) := by
  induction l with
  | nil => simp [sortByMtimeDesc]
  | cons e es ih => exact insertByMtime_pairwise e _ ih

/-- A name obtained by appending a 4-character extension whose lowercase
form is not `.mp3` never passes the `/\.mp3$/i` filter. -/
theorem isMp3L_append_ext (l ext : List Char) (hlen : ext.length = 4)
    (hne : ¬ ext.map Char.toLower = ['.', 'm', 'p', '3']) :
    isMp3L (l ++ ext) = false := by
  unfold isMp3L
  have h4 : (l ++ ext).length - 4 = l.length := by
    rw [List.length_append, hlen]
    omega
  rw [h4]
  have hdrop : (l ++ ext).drop l.length = ext := List.drop_left l ext
  rw [hdrop]
  simp [hne]

/-- The `.mp3` entries of a listing (the `mp3s` intermediate of
`enforceRetention`). -/
def mp3Entries (dir : List DirEntry) : List DirEntry :=
  dir.filter (fun e => isMp3L e.name)

/-- The names unlinked by `enforceRetention` for cap `N` (audio, transcript
and log of every entry beyond the `N` most recent). -/
def retDelNames (N : Int) (dir : List DirEntry) : List (List Char) :=
  (((sortByMtimeDesc (mp3Entries dir)).drop N.toNat).map
    (fun e => [e.name, mp3Stem e.name ++ ".txt".toList, mp3Stem e.name ++ ".log".toList])).flatten

/-- `enforceRetention` does nothing when at most `N` audio files exist. -/
theorem enforceRetention_eq_of_le (N : Int) (dir : List DirEntry) (hN : 0 < N)
    (hlen : (sortByMtimeDesc (mp3Entries dir)).length ≤ N.toNat) :
    enforceRetention (some N) dir = dir := by
  simp [enforceRetention, not_le.mpr hN, mp3Entries] at hlen ⊢
  intro h
  omega

/-- `enforceRetention` in the pruning case keeps exactly the entries whose
names are not slated for deletion. -/
theorem enforceRetention_eq_of_gt (N : Int) (dir : List DirEntry) (hN : 0 < N)
    (hlen : ¬ (sortByMtimeDesc (mp3Entries dir)).length ≤ N.toNat) :
    enforceRetention (some N) dir =
      dir.filter (fun e => !((retDelNames N dir).contains e.name)) := by
  simp [enforceRetention, not_le.mpr hN, mp3Entries, retDelNames] at hlen ⊢
  intro h
  omega

/-- Entries slated for deletion have their own name among the deleted
names. -/
theorem mem_retDelNames_self (N : Int) (dir : List DirEntry) (d : DirEntry)
    (hd : d ∈ (sortByMtimeDesc (mp3Entries dir)).drop N.toNat) :
    d.name ∈ retDelNames N dir ∧
    mp3Stem d.name ++ ".txt".toList ∈ retDelNames N dir ∧
    mp3Stem d.name ++ ".log".toList ∈ retDelNames N dir := by
  unfold retDelNames
  refine ⟨?_, ?_, ?_⟩ <;>
  · rw [List.mem_flatten]
    exact ⟨_, List.mem_map_of_mem _ hd, by simp⟩

/-- Conversely, an `.mp3`-named entry of the listing whose name is among
the deleted names is itself one of the dropped entries. -/
theorem mem_drop_of_name_mem_retDelNames (N : Int) (dir : List DirEntry) (e : DirEntry)
    (hnames : (dir.map DirEntry.name).Nodup)
    (he : e ∈ dir) (hmp3 : isMp3L e.name = true)
    (hmem : e.name ∈ retDelNames N dir) :
    e ∈ (sortByMtimeDesc (mp3Entries dir)).drop N.toNat := by
  unfold retDelNames at hmem
  rw [List.mem_flatten] at hmem
  obtain ⟨l, hl, hel⟩ := hmem
  rw [List.mem_map] at hl
  obtain ⟨d, hd, rfl⟩ := hl
  have hdDir : d ∈ dir := by
    have : d ∈ mp3Entries dir :=
      (sortByMtimeDesc_perm (mp3Entries dir)).mem_iff.mp (List.mem_of_mem_drop hd)
    exact (List.mem_filter.mp this).1
  simp only [List.mem_cons, List.mem_singleton, List.not_mem_nil, or_false] at hel
  rcases hel with h1 | h2 | h3
  · have : e = d := List.inj_on_of_nodup_map hnames he hdDir h1
    rw [this]
    exact hd
  · rw [h2] at hmp3
    rw [isMp3L_append_ext _ _ (by decide) (by decide)] at hmp3
    exact absurd hmp3 (by decide)
  · rw [h3] at hmp3
    rw [isMp3L_append_ext _ _ (by decide) (by decide)] at hmp3
    exact absurd hmp3 (by decide)

/-- Claim C4: for every retention cap N > 0 (with distinct modification
times and distinct file names), after enforcement the number of `.mp3`
bundles in the scanned recordings directory is `min N (previous count)` —
in particular at most N; every kept bundle is strictly more recent than
every deleted one (so the kept bundles are exactly the N most recently
modified); each deleted bundle has all three artifacts (audio `.mp3`,
transcript `.txt`, log `.log`) removed; and a cap of 0, a negative cap or
a non-numeric cap (NaN) deletes nothing. -/
theorem enforceRetention_spec (N : Int) (dir : List DirEntry)
    (hN : 0 < N)
    (hnames : (dir.map DirEntry.name).Nodup)
    (hmt : (mp3Entries dir).Pairwise (fun a b => a.mtime ≠ b.mtime)) :
    (mp3Entries (enforceRetention (some N) dir)).length =
        min N.toNat (mp3Entries dir).length ∧
    (mp3Entries (enforceRetention (some N) dir)).length ≤ N.toNat ∧
    (∀ e ∈ mp3Entries (enforceRetention (some N) dir),
      ∀ d ∈ mp3Entries dir, d ∉ enforceRetention (some N) dir → d.mtime < e.mtime) ∧
    (∀ d ∈ mp3Entries dir, d ∉ enforceRetention (some N) dir →
      ∀ e2 ∈ enforceRetention (some N) dir,
        e2.name ≠ d.name ∧ e2.name ≠ mp3Stem d.name ++ ".txt".toList ∧
        e2.name ≠ mp3Stem d.name ++ ".log".toList) ∧
    enforceRetention none dir = dir ∧
    (∀ M : Int, M ≤ 0 → enforceRetention (some M) dir = dir) := by
  have hlast : enforceRetention none dir = dir ∧
      (∀ M : Int, M ≤ 0 → enforceRetention (some M) dir = dir) := by
    constructor
    · rfl
    · intro M hM
      simp [enforceRetention, hM]
  have hpermS : List.Perm (sortByMtimeDesc (mp3Entries dir)) (mp3Entries dir) :=
    sortByMtimeDesc_perm (mp3Entries dir)
  have hndDir : dir.Nodup := List.Nodup.of_map _ hnames
  have hndMp3 : (mp3Entries dir).Nodup := List.Nodup.filter _ hndDir
  have hndSorted : (sortByMtimeDesc (mp3Entries dir)).Nodup := hpermS.nodup_iff.mpr hndMp3
  by_cases hlen : (sortByMtimeDesc (mp3Entries dir)).length ≤ N.toNat
  · have hres := enforceRetention_eq_of_le N dir hN hlen
    rw [hres]
    have hle : (mp3Entries dir).length ≤ N.toNat := by
      rw [← hpermS.length_eq]
      exact hlen
    refine ⟨?_, ?_, ?_, ?_, hlast.1, hlast.2⟩
    · omega
    · exact hle
    · intro e he d hd hnd
      exact absurd (List.mem_filter.mp hd).1 hnd
    · intro d hd hnd
      exact absurd (List.mem_filter.mp hd).1 hnd
  · have hres := enforceRetention_eq_of_gt N dir hN hlen
    -- the kept mp3 entries are exactly the first N of the descending sort
    have hsplit : (sortByMtimeDesc (mp3Entries dir)).take N.toNat ++
        (sortByMtimeDesc (mp3Entries dir)).drop N.toNat = sortByMtimeDesc (mp3Entries dir) :=
      List.take_append_drop _ _
    have hdisj : ∀ x, x ∈ (sortByMtimeDesc (mp3Entries dir)).take N.toNat →
        x ∈ (sortByMtimeDesc (mp3Entries dir)).drop N.toNat → False := by
      intro x h1 h2
      have := hndSorted
      rw [← hsplit, List.nodup_append] at this
      exact this.2.2 h1 h2
    have hkeepIff : ∀ e, e ∈ mp3Entries (enforceRetention (some N) dir) ↔
        e ∈ (sortByMtimeDesc (mp3Entries dir)).take N.toNat := by
      intro e
      rw [hres]
      constructor
      · intro he
        simp only [mp3Entries, List.mem_filter] at he
        obtain ⟨⟨heDir, heKeep⟩, hePmp3⟩ := he
        have heName : e.name ∉ retDelNames N dir := by simpa using heKeep
        have heMp3s : e ∈ mp3Entries dir := by
          simp only [mp3Entries, List.mem_filter]
          exact ⟨heDir, hePmp3⟩
        have heSorted : e ∈ sortByMtimeDesc (mp3Entries dir) := hpermS.mem_iff.mpr heMp3s
        rw [← hsplit, List.mem_append] at heSorted
        rcases heSorted with h | h
        · exact h
        · exact absurd ((mem_retDelNames_self N dir e h).1) heName
      · intro he
        have heSorted : e ∈ sortByMtimeDesc (mp3Entries dir) := List.mem_of_mem_take he
        have heMp3s : e ∈ mp3Entries dir := hpermS.mem_iff.mp heSorted
        have heDir : e ∈ dir := (List.mem_filter.mp heMp3s).1
        have hePmp3 : isMp3L e.name = true := (List.mem_filter.mp heMp3s).2
        have heName : e.name ∉ retDelNames N dir := by
          intro hc
          exact hdisj e he (mem_drop_of_name_mem_retDelNames N dir e hnames heDir hePmp3 hc)
        simp only [mp3Entries, List.mem_filter]
        refine ⟨⟨heDir, ?_⟩, hePmp3⟩
        simpa using heName
    have hdelChar : ∀ d, d ∈ mp3Entries dir → d ∉ enforceRetention (some N) dir →
        d ∈ (sortByMtimeDesc (mp3Entries dir)).drop N.toNat := by
      intro d hd hnd
      have hdDir : d ∈ dir := (List.mem_filter.mp hd).1
      have hdP : isMp3L d.name = true := (List.mem_filter.mp hd).2
      rw [hres] at hnd
      have hcont : d.name ∈ retDelNames N dir := by
        by_contra hc
        apply hnd
        refine List.mem_filter.mpr ⟨hdDir, ?_⟩
        simpa using hc
      exact mem_drop_of_name_mem_retDelNames N dir d hnames hdDir hdP hcont
    have hkeepPerm : List.Perm (mp3Entries (enforceRetention (some N) dir))
        ((sortByMtimeDesc (mp3Entries dir)).take N.toNat) := by
      apply List.perm_of_nodup_nodup_toFinset_eq
      · rw [hres]
        exact List.Nodup.filter _ (List.Nodup.filter _ hndDir)
      · have := hndSorted
        rw [← hsplit, List.nodup_append] at this
        exact this.1
      · ext x
        simp only [List.mem_toFinset]
        exact hkeepIff x
    have hlenEq : (mp3Entries (enforceRetention (some N) dir)).length = N.toNat := by
      rw [hkeepPerm.length_eq, List.length_take]
      omega
    refine ⟨?_, ?_, ?_, ?_, hlast.1, hlast.2⟩
    · rw [hlenEq, ← hpermS.length_eq]
      omega
    · omega
    · intro e he d hd hnd
      have heKeep := (hkeepIff e).mp he
      have hdDrop := hdelChar d hd hnd
      have hpw := sortByMtimeDesc_pairwise (mp3Entries dir)
      rw [← hsplit, List.pairwise_append] at hpw
      have hle : d.mtime ≤ e.mtime := hpw.2.2 e heKeep d hdDrop
      have hne : e ≠ d := by
        intro hc
        exact hdisj e heKeep (hc ▸ hdDrop)
      have hmtne : e.mtime ≠ d.mtime := by
        have heMp3s : e ∈ mp3Entries dir :=
          hpermS.mem_iff.mp (List.mem_of_mem_take heKeep)
        exact List.Pairwise.forall (fun x y h => h.symm) hmt heMp3s hd hne
      omega
    · intro d hd hnd e2 he2
      have hdDrop := hdelChar d hd hnd
      have hd3 := mem_retDelNames_self N dir d hdDrop
      rw [hres] at he2
      rw [List.mem_filter] at he2
      have he2Name : e2.name ∉ retDelNames N dir := by
        simpa using he2.2
      refine ⟨?_, ?_, ?_⟩
      · intro hc
        exact he2Name (hc ▸ hd3.1)
      · intro hc
        exact he2Name (hc ▸ hd3.2.1)
      · intro hc
        exact he2Name (hc ▸ hd3.2.2)

/-- Claim C4 witness: cap 2 over three bundles with distinct modification
times keeps exactly two. -/
theorem enforceRetention_spec_witness :
    (mp3Entries (enforceRetention (some 2)
        [⟨"a.mp3".toList, 5⟩, ⟨"b.mp3".toList, 3⟩, ⟨"c.mp3".toList, 9⟩, ⟨"b.txt".toList, 1⟩])).length =
      min (Int.toNat 2)
        (mp3Entries [⟨"a.mp3".toList, 5⟩, ⟨"b.mp3".toList, 3⟩, ⟨"c.mp3".toList, 9⟩, ⟨"b.txt".toList, 1⟩]).length :=
  (enforceRetention_spec 2
    [⟨"a.mp3".toList, 5⟩, ⟨"b.mp3".toList, 3⟩, ⟨"c.mp3".toList, 9⟩, ⟨"b.txt".toList, 1⟩]
    (by decide) (by decide) (by decide)).1

/-! ### Claim C1: each segment is transcribed exactly once -/

/-- Field bookkeeping of `handleNewLiveSegment`: the processed set and the
invocation log grow together (by the same path, only when the path was not
yet processed); pending timers, the scheduling log and the closed flag are
untouched. -/
theorem handle_fields (s : WatcherState) (p : String) (res : Option String) :
    ((handleNewLiveSegment s p res).processed =
      if p ∈ s.processed then s.processed else p :: s.processed) ∧
    ((handleNewLiveSegment s p res).invoked =
      if p ∈ s.processed then s.invoked else p :: s.invoked) ∧
    (handleNewLiveSegment s p res).pending = s.pending ∧
    (handleNewLiveSegment s p res).scheduled = s.scheduled ∧
    (handleNewLiveSegment s p res).watcherClosed = s.watcherClosed := by
  by_cases hp : p ∈ s.processed
  · simp [handleNewLiveSegment, hp]
  · cases res with
    | none => simp [handleNewLiveSegment, hp]
    | some text =>
      by_cases ht : jsTrim text = "" <;> simp [handleNewLiveSegment, hp, ht]

/-- The watcher invariant: the invocation log is duplicate-free and lists
exactly the processed paths (the processed-set insertion is synchronous
with the invocation); the scheduling log is duplicate-free; while the
watcher is open, every scheduled path is still pending or already
processed; once it is closed, no timer is pending. -/
def WInv (s : WatcherState) : Prop :=
  s.invoked.Nodup ∧ s.scheduled.Nodup ∧
  (∀ p, p ∈ s.invoked ↔ p ∈ s.processed) ∧
  (s.watcherClosed = false → ∀ p ∈ s.scheduled, p ∈ s.pending ∨ p ∈ s.processed) ∧
  (s.watcherClosed = true → s.pending = []) ∧
  (∀ p ∈ s.pending, p ∈ s.scheduled)

/-- `handleNewLiveSegment` preserves the invariant. -/
theorem WInv_handle (s : WatcherState) (p : String) (res : Option String)
    (h : WInv s) : WInv (handleNewLiveSegment s p res) := by
  obtain ⟨hfp, hfi, hfpe, hfs, hfc⟩ := handle_fields s p res
  obtain ⟨h1, h2, h3, h4, h5, h6⟩ := h
  by_cases hp : p ∈ s.processed
  · rw [if_pos hp] at hfp hfi
    exact ⟨hfi ▸ h1, hfs ▸ h2, by rw [hfi, hfp]; exact h3,
      by rw [hfc, hfs, hfpe, hfp]; exact h4, by rw [hfc, hfpe]; exact h5,
      by rw [hfpe, hfs]; exact h6⟩
  · rw [if_neg hp] at hfp hfi
    refine ⟨?_, hfs ▸ h2, ?_, ?_, ?_, ?_⟩
    · rw [hfi]
      refine List.nodup_cons.mpr ⟨?_, h1⟩
      intro hc
      exact hp ((h3 p).mp hc)
    · intro q
      rw [hfi, hfp, List.mem_cons, List.mem_cons]
      constructor
      · rintro (rfl | hq)
        · exact Or.inl rfl
        · exact Or.inr ((h3 q).mp hq)
      · rintro (rfl | hq)
        · exact Or.inl rfl
        · exact Or.inr ((h3 q).mpr hq)
    · rw [hfc, hfs, hfpe, hfp]
      intro hcl q hq
      rcases h4 hcl q hq with hq2 | hq2
      · exact Or.inl hq2
      · exact Or.inr (List.mem_cons_of_mem _ hq2)
    · rw [hfc, hfpe]
      exact h5
    · rw [hfpe, hfs]
      exact h6

/-- The watcher invariant holds initially. -/
theorem WInv_winit (disk0 : List String) : WInv (winit disk0) := by
  refine ⟨List.nodup_nil, List.nodup_nil, ?_, ?_, ?_, ?_⟩ <;> simp [winit]

/-- The invariant only looks at five fields, so any state agreeing on them
inherits it. -/
theorem WInv_of_fields (s t : WatcherState) (h : WInv s)
    (hp : t.processed = s.processed) (hpe : t.pending = s.pending)
    (hi : t.invoked = s.invoked) (hs : t.scheduled = s.scheduled)
    (hc : t.watcherClosed = s.watcherClosed) : WInv t := by
  obtain ⟨h1, h2, h3, h4, h5, h6⟩ := h
  unfold WInv
  rw [hp, hpe, hi, hs, hc]
  exact ⟨h1, h2, h3, h4, h5, h6⟩

/-- `fsEvent` preserves the invariant. -/
theorem WInv_fsEvent (cfg : WatchCfg) (s : WatcherState) (f : String)
    (h : WInv s) : WInv (fsEvent cfg s f) := by
  obtain ⟨h1, h2, h3, h4, h5, h6⟩ := h
  unfold fsEvent
  by_cases hcl : s.watcherClosed = true
  · rw [if_pos (by simp [hcl])]
    exact ⟨h1, h2, h3, h4, h5, h6⟩
  · rw [if_neg (by simpa using hcl)]
    by_cases hemp : f = ""
    · rw [if_pos (by simp [hemp])]
      exact ⟨h1, h2, h3, h4, h5, h6⟩
    · rw [if_neg (by simpa using hemp)]
      cases hparse : segParse cfg f with
      | none => exact ⟨h1, h2, h3, h4, h5, h6⟩
      | some idx =>
        dsimp only []
        by_cases hidx : 1 ≤ idx
        · rw [if_pos hidx]
          by_cases hguard : (cfg.audioDir ++ "/" ++ segFileName cfg (idx - 1)) ∉ s.processed ∧
              (cfg.audioDir ++ "/" ++ segFileName cfg (idx - 1)) ∉ s.pending
          · rw [if_pos (by simp [hguard.1, hguard.2])]
            have hns : (cfg.audioDir ++ "/" ++ segFileName cfg (idx - 1)) ∉ s.scheduled := by
              intro hc
              rcases h4 (by simpa using hcl) _ hc with hq | hq
              · exact hguard.2 hq
              · exact hguard.1 hq
            refine ⟨h1, List.nodup_cons.mpr ⟨hns, h2⟩, h3, ?_, ?_, ?_⟩
            · intro hclf q hq
              rcases List.mem_cons.mp hq with rfl | hq2
              · exact Or.inl (List.mem_cons_self _ _)
              · rcases h4 (by simpa using hcl) q hq2 with hq3 | hq3
                · exact Or.inl (List.mem_cons_of_mem _ hq3)
                · exact Or.inr hq3
            · intro hclf
              exact absurd hclf hcl
            · intro q hq
              rcases List.mem_cons.mp hq with rfl | hq2
              · exact List.mem_cons_self _ _
              · exact List.mem_cons_of_mem _ (h6 q hq2)
          · rw [if_neg (by
              rcases not_and_or.mp hguard with hg | hg
              · simp only [not_not] at hg
                simp [hg]
              · simp only [not_not] at hg
                simp [hg])]
            exact ⟨h1, h2, h3, h4, h5, h6⟩
        · rw [if_neg hidx]
          exact ⟨h1, h2, h3, h4, h5, h6⟩

/-- `timerFire` preserves the invariant.  The deletion of the timer and the
processed-set insertion happen in the same synchronous turn, so the
scheduled-implies-pending-or-processed property is re-established by the
time the turn ends. -/
theorem WInv_timerFire (s : WatcherState) (p : String) (res : Option String)
    (h : WInv s) : WInv (timerFire s p res) := by
  unfold timerFire
  by_cases hmem : p ∈ s.pending
  · rw [if_pos (by simpa using hmem)]
    obtain ⟨h1, h2, h3, h4, h5, h6⟩ := h
    obtain ⟨hfp, hfi, hfpe, hfs, hfc⟩ :=
      handle_fields { s with pending := s.pending.erase p } p res
    simp only [] at hfp hfi hfpe hfs hfc
    have hppv : p ∈ (handleNewLiveSegment { s with pending := s.pending.erase p } p res).processed := by
      rw [hfp]
      by_cases hp : p ∈ s.processed <;> simp [hp]
    refine ⟨?_, ?_, ?_, ?_, ?_, ?_⟩
    · rw [hfi]
      by_cases hp : p ∈ s.processed
      · rw [if_pos hp]
        exact h1
      · rw [if_neg hp]
        exact List.nodup_cons.mpr ⟨fun hc => hp ((h3 p).mp hc), h1⟩
    · rw [hfs]
      exact h2
    · intro q
      rw [hfi, hfp]
      by_cases hp : p ∈ s.processed
      · rw [if_pos hp, if_pos hp]
        exact h3 q
      · rw [if_neg hp, if_neg hp, List.mem_cons, List.mem_cons]
        constructor
        · rintro (rfl | hq)
          · exact Or.inl rfl
          · exact Or.inr ((h3 q).mp hq)
        · rintro (rfl | hq)
          · exact Or.inl rfl
          · exact Or.inr ((h3 q).mpr hq)
    · rw [hfc, hfs, hfpe]
      intro hcl q hq
      by_cases hqp : q = p
      · subst hqp
        exact Or.inr hppv
      · rcases h4 hcl q hq with hq2 | hq2
        · exact Or.inl ((List.mem_erase_of_ne hqp).mpr hq2)
        · refine Or.inr ?_
          rw [hfp]
          by_cases hp : p ∈ s.processed
          · rw [if_pos hp]
            exact hq2
          · rw [if_neg hp]
            exact List.mem_cons_of_mem _ hq2
    · intro hcl
      rw [hfc] at hcl
      exact absurd (h5 hcl ▸ hmem) (List.not_mem_nil p)
    · rw [hfpe, hfs]
      intro q hq
      exact h6 q (List.mem_of_mem_erase hq)
  · rw [if_neg (by simpa using hmem)]
    exact h

/-- Membership in the insertion sort of strings. -/
theorem mem_insertStr (a x : String) (l : List String) :
    x ∈ insertStr a l ↔ x = a ∨ x ∈ l := by
  induction l with
  | nil => simp [insertStr]
  | cons b bs ih =>
    unfold insertStr
    split
    · simp [List.mem_cons]
    · simp only [List.mem_cons, ih]
      tauto

/-- Sorting does not change membership. -/
theorem mem_sortStrings (x : String) (l : List String) : x ∈ sortStrings l ↔ x ∈ l := by
  induction l with
  | nil => simp [sortStrings]
  | cons a as ih => simp [sortStrings, mem_insertStr, ih]

/-- A previously processed path stays processed across
`handleNewLiveSegment`. -/
theorem mem_processed_handle (s : WatcherState) (p : String) (res : Option String)
    (q : String) (hq : q ∈ s.processed) : q ∈ (handleNewLiveSegment s p res).processed := by
  rw [(handle_fields s p res).1]
  split
  · exact hq
  · exact List.mem_cons_of_mem _ hq

/-- The handled path is processed afterwards. -/
theorem self_mem_processed_handle (s : WatcherState) (p : String) (res : Option String) :
    p ∈ (handleNewLiveSegment s p res).processed := by
  rw [(handle_fields s p res).1]
  split
  · assumption
  · exact List.mem_cons_self _ _

/-- The core of the invariant threaded through the finalize loop. -/
def WCore (s : WatcherState) : Prop :=
  s.invoked.Nodup ∧ (∀ p, p ∈ s.invoked ↔ p ∈ s.processed)

/-- `handleNewLiveSegment` preserves the core. -/
theorem WCore_handle (s : WatcherState) (p : String) (res : Option String)
    (h : WCore s) : WCore (handleNewLiveSegment s p res) := by
  obtain ⟨h1, h3⟩ := h
  obtain ⟨hfp, hfi, _, _, _⟩ := handle_fields s p res
  by_cases hp : p ∈ s.processed
  · rw [if_pos hp] at hfp hfi
    exact ⟨hfi ▸ h1, fun q => by rw [hfi, hfp]; exact h3 q⟩
  · rw [if_neg hp] at hfp hfi
    constructor
    · rw [hfi]
      exact List.nodup_cons.mpr ⟨fun hc => hp ((h3 p).mp hc), h1⟩
    · intro q
      rw [hfi, hfp, List.mem_cons, List.mem_cons]
      constructor
      · rintro (rfl | hq)
        · exact Or.inl rfl
        · exact Or.inr ((h3 q).mp hq)
      · rintro (rfl | hq)
        · exact Or.inl rfl
        · exact Or.inr ((h3 q).mpr hq)

/-- The finalize loop preserves the core and leaves the scheduling log,
the closed flag and the pending map untouched. -/
theorem foldl_handle_core (cfg : WatchCfg) (res : String → Option String) (l : List String)
    (s : WatcherState) (h : WCore s) :
    WCore (l.foldl (fun acc f =>
      if acc.processed.contains (cfg.audioDir ++ "/" ++ f) then acc
      else handleNewLiveSegment acc (cfg.audioDir ++ "/" ++ f) (res (cfg.audioDir ++ "/" ++ f))) s) ∧
    (l.foldl (fun acc f =>
      if acc.processed.contains (cfg.audioDir ++ "/" ++ f) then acc
      else handleNewLiveSegment acc (cfg.audioDir ++ "/" ++ f) (res (cfg.audioDir ++ "/" ++ f))) s).scheduled
        = s.scheduled ∧
    (l.foldl (fun acc f =>
      if acc.processed.contains (cfg.audioDir ++ "/" ++ f) then acc
      else handleNewLiveSegment acc (cfg.audioDir ++ "/" ++ f) (res (cfg.audioDir ++ "/" ++ f))) s).watcherClosed
        = s.watcherClosed := by
  induction l generalizing s with
  | nil => exact ⟨h, rfl, rfl⟩
  | cons f fs ih =>
    rw [List.foldl_cons]
    have hstep : WCore (if s.processed.contains (cfg.audioDir ++ "/" ++ f) then s
        else handleNewLiveSegment s (cfg.audioDir ++ "/" ++ f) (res (cfg.audioDir ++ "/" ++ f))) := by
      split
      · exact h
      · exact WCore_handle _ _ _ h
    obtain ⟨hc, hs2, hw2⟩ := ih _ hstep
    refine ⟨hc, ?_, ?_⟩
    · rw [hs2]
      split
      · rfl
      · exact (handle_fields _ _ _).2.2.2.1
    · rw [hw2]
      split
      · rfl
      · exact (handle_fields _ _ _).2.2.2.2

/-- Processed paths survive the finalize loop. -/
theorem foldl_handle_processed_mono (cfg : WatchCfg) (res : String → Option String)
    (l : List String) (s : WatcherState) (q : String) (hq : q ∈ s.processed) :
    q ∈ (l.foldl (fun acc f =>
      if acc.processed.contains (cfg.audioDir ++ "/" ++ f) then acc
      else handleNewLiveSegment acc (cfg.audioDir ++ "/" ++ f) (res (cfg.audioDir ++ "/" ++ f))) s).processed := by
  induction l generalizing s with
  | nil => exact hq
  | cons f fs ih =>
    rw [List.foldl_cons]
    apply ih
    split
    · exact hq
    · exact mem_processed_handle _ _ _ _ hq

/-- After the finalize loop every listed file's path is processed. -/
theorem foldl_handle_covers (cfg : WatchCfg) (res : String → Option String)
    (l : List String) (s : WatcherState) :
    ∀ f ∈ l, (cfg.audioDir ++ "/" ++ f) ∈ (l.foldl (fun acc f =>
      if acc.processed.contains (cfg.audioDir ++ "/" ++ f) then acc
      else handleNewLiveSegment acc (cfg.audioDir ++ "/" ++ f) (res (cfg.audioDir ++ "/" ++ f))) s).processed := by
  induction l generalizing s with
  | nil => intro f hf; exact absurd hf (List.not_mem_nil f)
  | cons g gs ih =>
    intro f hf
    rw [List.foldl_cons]
    rcases List.mem_cons.mp hf with rfl | hf2
    · apply foldl_handle_processed_mono
      split
      · rename_i hcont
        simpa using hcont
      · exact self_mem_processed_handle _ _ _
    · exact ih _ f hf2

/-- Every single event preserves the watcher invariant. -/
theorem WInv_wstep (cfg : WatchCfg) (s : WatcherState) (ev : WEvent)
    (h : WInv s) : WInv (wstep cfg s ev) := by
  cases ev with
  | fs f => exact WInv_fsEvent cfg s f h
  | timer p r => exact WInv_timerFire s p r h
  | finalize files r =>
    obtain ⟨h1, h2, h3, h4, h5, h6⟩ := h
    obtain ⟨⟨hc1, hc3⟩, hcs, hcw⟩ := foldl_handle_core cfg r
      (sortStrings (files.filter (fun f => (segParse cfg f).isSome)))
      { s with watcherClosed := true } ⟨h1, h3⟩
    have hsch : (wstep cfg s (WEvent.finalize files r)).scheduled = s.scheduled := hcs
    have hclw : (wstep cfg s (WEvent.finalize files r)).watcherClosed = true := hcw
    have hpend : (wstep cfg s (WEvent.finalize files r)).pending = [] := rfl
    refine ⟨hc1, ?_, hc3, ?_, ?_, ?_⟩
    · rw [hsch]
      exact h2
    · intro hcl
      exact absurd (hclw.symm.trans hcl) (by simp)
    · intro hcl
      exact hpend
    · intro q hq
      rw [hpend] at hq
      exact absurd hq (List.not_mem_nil q)

/-- The invariant holds after any event trace. -/
theorem WInv_wrun (cfg : WatchCfg) (evs : List WEvent) (s : WatcherState)
    (h : WInv s) : WInv (wrun cfg s evs) := by
  induction evs generalizing s with
  | nil => exact h
  | cons ev evs ih =>
    rw [wrun, List.foldl_cons]
    exact ih _ (WInv_wstep cfg s ev h)

/-- Claim C1: for every event sequence delivered to the live watcher
(arbitrary duplicate filesystem notifications included) followed by the
stop-time finalize pass, the transcription subprocess is invoked at most
once per segment path overall and exactly once for every segment file
still listed at finalize time; a debounce timer is never scheduled twice
for the same path; the processed-set membership is inserted synchronously
with the invocation, and the finalize pass skips every path already in the
processed set. -/
theorem live_segment_transcribed_once (cfg : WatchCfg) (disk0 : List String)
    (evs : List WEvent) (files : List String) (res : String → Option String) :
    (∀ p : String,
      ((wrun cfg (winit disk0) (evs ++ [WEvent.finalize files res])).invoked).count p ≤ 1) ∧
    ((wrun cfg (winit disk0) (evs ++ [WEvent.finalize files res])).scheduled).Nodup ∧
    (∀ f ∈ files, (segParse cfg f).isSome = true →
      ((wrun cfg (winit disk0) (evs ++ [WEvent.finalize files res])).invoked).count
        (cfg.audioDir ++ "/" ++ f) = 1) := by
  have hrun : wrun cfg (winit disk0) (evs ++ [WEvent.finalize files res]) =
      wstep cfg (wrun cfg (winit disk0) evs) (WEvent.finalize files res) := by
    unfold wrun
    rw [List.foldl_append]
    rfl
  have hIF : WInv (wstep cfg (wrun cfg (winit disk0) evs) (WEvent.finalize files res)) :=
    WInv_wstep cfg _ _ (WInv_wrun cfg evs _ (WInv_winit disk0))
  rw [hrun]
  refine ⟨?_, hIF.2.1, ?_⟩
  · intro p
    exact List.nodup_iff_count_le_one.mp hIF.1 p
  · intro f hf hparse
    have hcov : (cfg.audioDir ++ "/" ++ f) ∈
        (wstep cfg (wrun cfg (winit disk0) evs) (WEvent.finalize files res)).processed := by
      show (cfg.audioDir ++ "/" ++ f) ∈
        (stopLiveWatcherAndFinalize cfg (wrun cfg (winit disk0) evs) files res).processed
      unfold stopLiveWatcherAndFinalize
      apply foldl_handle_covers
      rw [mem_sortStrings]
      exact List.mem_filter.mpr ⟨hf, by simpa using hparse⟩
    have hmemInv : (cfg.audioDir ++ "/" ++ f) ∈
        (wstep cfg (wrun cfg (winit disk0) evs) (WEvent.finalize files res)).invoked :=
      (hIF.2.2.1 _).mpr hcov
    have hle := List.nodup_iff_count_le_one.mp hIF.1 (cfg.audioDir ++ "/" ++ f)
    have hge : 0 < ((wstep cfg (wrun cfg (winit disk0) evs)
        (WEvent.finalize files res)).invoked).count (cfg.audioDir ++ "/" ++ f) :=
      List.count_pos_iff.mpr hmemInv
    omega

/-- Claim C1 witness: duplicate filesystem events for segment 1, its timer
firing, then finalize over the remaining listing — segment 0 and segment 1
are each transcribed exactly once. -/
theorem live_segment_transcribed_once_witness :
    ((wrun ⟨"d", "rec"⟩ (winit [])
        ([WEvent.fs "rec_seg_001.mp3", WEvent.timer "d/rec_seg_000.mp3" (some "hello"),
          WEvent.fs "rec_seg_001.mp3"] ++
         [WEvent.finalize ["rec_seg_001.mp3", "notes.txt"] (fun _ => some "tail")])).invoked).count
      ("d" ++ "/" ++ "rec_seg_001.mp3") = 1 :=
  (live_segment_transcribed_once ⟨"d", "rec"⟩ []
    [WEvent.fs "rec_seg_001.mp3", WEvent.timer "d/rec_seg_000.mp3" (some "hello"),
     WEvent.fs "rec_seg_001.mp3"]
    ["rec_seg_001.mp3", "notes.txt"] (fun _ => some "tail")).2.2
    "rec_seg_001.mp3" (by decide) (by decide)

/-! ### Claim C9: checkbox normalisation idempotence -/

/-- Typographic or plain quote characters: the inputs whose absence the
amended idempotence statement assumes. -/
def isQuoteLike (c : Char) : Bool :=
  isQuoteChar c || c.toNat == 0x201C || c.toNat == 0x201D || c.toNat == 0xAB ||
  c.toNat == 0xBB || c.toNat == 0x2018 || c.toNat == 0x2019

/-- `firstSome` on a cons whose head succeeds. -/
theorem firstSome_cons_some {α β : Type} (f : α → Option β) (a : α) (xs : List α) (b : β)
    (h : f a = some b) : firstSome (a :: xs) f = some b := by
  unfold firstSome
  rw [h]

/-- `firstSome` fails iff every alternative fails. -/
theorem firstSome_eq_none_iff {α β : Type} (f : α → Option β) (xs : List α) :
    firstSome xs f = none ↔ ∀ x ∈ xs, f x = none := by
  induction xs with
  | nil => simp [firstSome]
  | cons a as ih =>
    unfold firstSome
    cases hfa : f a with
    | some b => simp [hfa]
    | none => simp [hfa, ih]

/-- A successful `firstSome` came from one of the alternatives. -/
theorem firstSome_some_ex {α β : Type} (f : α → Option β) (xs : List α) (b : β)
    (h : firstSome xs f = some b) : ∃ x ∈ xs, f x = some b := by
  induction xs with
  | nil => simp [firstSome] at h
  | cons a as ih =>
    unfold firstSome at h
    cases hfa : f a with
    | some c =>
      rw [hfa] at h
      exact ⟨a, List.mem_cons_self _ _, hfa.trans h⟩
    | none =>
      rw [hfa] at h
      obtain ⟨x, hx, hfx⟩ := ih h
      exact ⟨x, List.mem_cons_of_mem _ hx, hfx⟩

/-- Every `\s*` candidate is the input minus an all-whitespace front. -/
theorem wsDrops_shape (cs : List Char) :
    ∀ x ∈ wsDrops cs, ∃ pre, cs = pre ++ x ∧ ∀ c ∈ pre, isSpaceJS c = true := by
  induction cs with
  | nil =>
    intro x hx
    simp [wsDrops] at hx
    exact ⟨[], by simp [hx]⟩
  | cons c rest ih =>
    intro x hx
    unfold wsDrops at hx
    by_cases hc : isSpaceJS c
    · rw [if_pos hc] at hx
      rcases List.mem_append.mp hx with hx2 | hx2
      · obtain ⟨pre, hpre, hws⟩ := ih x hx2
        refine ⟨c :: pre, by rw [List.cons_append, ← hpre], ?_⟩
        intro d hd
        rcases List.mem_cons.mp hd with rfl | hd2
        · exact hc
        · exact hws d hd2
      · rw [List.mem_singleton] at hx2
        exact ⟨[], by simp [hx2]⟩
    · rw [if_neg hc, List.mem_singleton] at hx
      exact ⟨[], by simp [hx]⟩

/-- The whole input is always a `\s*` candidate. -/
theorem self_mem_wsDrops (cs : List Char) : cs ∈ wsDrops cs := by
  cases cs with
  | nil => simp [wsDrops]
  | cons c rest =>
    unfold wsDrops
    split
    · exact List.mem_append_right _ (List.mem_singleton.mpr rfl)
    · exact List.mem_singleton.mpr rfl

/-- Dropping any all-whitespace front is a `\s*` candidate. -/
theorem mem_wsDrops_of_ws_front (pre r : List Char) (hws : ∀ c ∈ pre, isSpaceJS c = true) :
    r ∈ wsDrops (pre ++ r) := by
  induction pre with
  | nil => exact self_mem_wsDrops r
  | cons p ps ih =>
    rw [List.cons_append]
    unfold wsDrops
    rw [if_pos (hws p (List.mem_cons_self _ _))]
    exact List.mem_append_left _ (ih (fun c hc => hws c (List.mem_cons_of_mem _ hc)))

/-- The candidate list starts with the maximal drop: a decomposition of the
input into its whitespace front and a remainder that is empty or starts
with a non-whitespace character, the remainder heading the candidate
list. -/
theorem wsDrops_decomp (cs : List Char) :
    ∃ pre r tl, cs = pre ++ r ∧ (∀ c ∈ pre, isSpaceJS c = true) ∧
      (∀ c r2, r = c :: r2 → isSpaceJS c = false) ∧ wsDrops cs = r :: tl := by
  induction cs with
  | nil => exact ⟨[], [], [], rfl, by simp, by simp, rfl⟩
  | cons c rest ih =>
    by_cases hc : isSpaceJS c
    · obtain ⟨pre, r, tl, heq, hws, hr, hd⟩ := ih
      refine ⟨c :: pre, r, tl ++ [c :: rest], by rw [List.cons_append, ← heq], ?_, hr, ?_⟩
      · intro d hd2
        rcases List.mem_cons.mp hd2 with rfl | hd3
        · exact hc
        · exact hws d hd3
      · unfold wsDrops
        rw [if_pos hc, hd]
        rfl
    · refine ⟨[], c :: rest, [], rfl, by simp, ?_, ?_⟩
      · intro d r2 hdr
        rw [List.cons.injEq] at hdr
        rw [← hdr.1]
        simpa using hc
      · unfold wsDrops
        rw [if_neg hc]

/-- Every `(\s*)` capture candidate splits the input into an
all-whitespace capture and the remainder. -/
theorem wsTakes_shape (cs : List Char) :
    ∀ p ∈ wsTakes cs, cs = p.1 ++ p.2 ∧ ∀ c ∈ p.1, isSpaceJS c = true := by
  induction cs with
  | nil =>
    intro p hp
    simp [wsTakes] at hp
    simp [hp]
  | cons c rest ih =>
    intro p hp
    unfold wsTakes at hp
    by_cases hc : isSpaceJS c
    · rw [if_pos hc] at hp
      rcases List.mem_append.mp hp with hp2 | hp2
      · rw [List.mem_map] at hp2
        obtain ⟨q, hq, rfl⟩ := hp2
        obtain ⟨hq1, hq2⟩ := ih q hq
        constructor
        · rw [List.cons_append, ← hq1]
        · intro d hd
          rcases List.mem_cons.mp hd with rfl | hd2
          · exact hc
          · exact hq2 d hd2
      · rw [List.mem_singleton] at hp2
        simp [hp2]
    · rw [if_neg hc, List.mem_singleton] at hp
      simp [hp]

/-- The `(\s*)` capture candidates start with the maximal capture. -/
theorem wsTakes_decomp (cs : List Char) :
    ∃ pre r tl, cs = pre ++ r ∧ (∀ c ∈ pre, isSpaceJS c = true) ∧
      (∀ c r2, r = c :: r2 → isSpaceJS c = false) ∧ wsTakes cs = (pre, r) :: tl := by
  induction cs with
  | nil => exact ⟨[], [], [], rfl, by simp, by simp, rfl⟩
  | cons c rest ih =>
    by_cases hc : isSpaceJS c
    · obtain ⟨pre, r, tl, heq, hws, hr, hd⟩ := ih
      refine ⟨c :: pre, r, tl.map (fun p => (c :: p.1, p.2)) ++ [([], c :: rest)],
        by rw [List.cons_append, ← heq], ?_, hr, ?_⟩
      · intro d hd2
        rcases List.mem_cons.mp hd2 with rfl | hd3
        · exact hc
        · exact hws d hd3
      · unfold wsTakes
        rw [if_pos hc, hd]
        rfl
    · refine ⟨[], c :: rest, [], rfl, by simp, ?_, ?_⟩
      · intro d r2 hdr
        rw [List.cons.injEq] at hdr
        rw [← hdr.1]
        simpa using hc
      · unfold wsTakes
        rw [if_neg hc]

/-- `trimEnd` splits off an all-whitespace tail. -/
theorem jsTrimEndL_decomp (l : List Char) :
    ∃ t, l = jsTrimEndL l ++ t ∧ ∀ c ∈ t, isSpaceJS c = true := by
  refine ⟨(l.reverse.takeWhile isSpaceJS).reverse, ?_, ?_⟩
  · unfold jsTrimEndL
    rw [← List.reverse_append, List.takeWhile_append_dropWhile, List.reverse_reverse]
  · intro c hc
    rw [List.mem_reverse] at hc
    exact List.mem_takeWhile_imp hc

/-- `trimEnd` of a list ending in non-whitespace keeps everything. -/
theorem jsTrimEndL_append_last (l : List Char) (c : Char) (hc : isSpaceJS c = false) :
    jsTrimEndL (l ++ [c]) = l ++ [c] := by
  unfold jsTrimEndL
  rw [List.reverse_append]
  simp only [List.reverse_singleton, List.singleton_append, List.dropWhile_cons]
  rw [hc]
  simp

/-- `trimEnd` over an append whose right part survives. -/
theorem jsTrimEndL_append (l r : List Char) (h : jsTrimEndL r ≠ []) :
    jsTrimEndL (l ++ r) = l ++ jsTrimEndL r := by
  unfold jsTrimEndL at h ⊢
  rw [List.reverse_append, List.dropWhile_append]
  have : ¬ (r.reverse.dropWhile isSpaceJS).isEmpty := by
    intro hc
    rw [List.isEmpty_iff] at hc
    rw [hc] at h
    exact h rfl
  rw [if_neg this]
  rw [List.reverse_append, List.reverse_reverse]

/-- `trimEnd` kills exactly the all-whitespace lists. -/
theorem jsTrimEndL_eq_nil_iff (l : List Char) :
    jsTrimEndL l = [] ↔ ∀ c ∈ l, isSpaceJS c = true := by
  unfold jsTrimEndL
  rw [List.reverse_eq_nil_iff, List.dropWhile_eq_nil_iff]
  constructor
  · intro h c hc
    exact h c (List.mem_reverse.mpr hc)
  · intro h c hc
    exact h c (List.mem_reverse.mp hc)

/-- `trimEnd` of an all-whitespace tail disappears. -/
theorem jsTrimEndL_append_ws (l t : List Char) (ht : ∀ c ∈ t, isSpaceJS c = true) :
    jsTrimEndL (l ++ t) = jsTrimEndL l := by
  unfold jsTrimEndL
  rw [List.reverse_append, List.dropWhile_append]
  have : (t.reverse.dropWhile isSpaceJS).isEmpty := by
    rw [List.isEmpty_iff, List.dropWhile_eq_nil_iff]
    intro c hc
    exact ht c (List.mem_reverse.mp hc)
  rw [if_pos this]

/-- `trimEnd` is idempotent. -/
theorem jsTrimEndL_idem (l : List Char) : jsTrimEndL (jsTrimEndL l) = jsTrimEndL l := by
  obtain ⟨t, hl, ht⟩ := jsTrimEndL_decomp l
  conv_rhs => rw [hl]
  rw [jsTrimEndL_append_ws _ _ ht]

/-- Equation lemma: a line-feed always separates. -/
theorem splitLinesJS_cons_nl (rest : List Char) :
    splitLinesJS ('\n' :: rest) = [] :: splitLinesJS rest := rfl

/-- Equation lemma: a CRLF pair behaves like a lone line feed. -/
theorem splitLinesJS_cons_crlf (rest : List Char) :
    splitLinesJS ('\r' :: '\n' :: rest) = splitLinesJS ('\n' :: rest) := rfl

/-- Equation lemma: a carriage return not followed by a line feed joins the
first line like any other character. -/
theorem splitLinesJS_cons_cr (rest : List Char) (h : rest.head? ≠ some '\n') :
    splitLinesJS ('\r' :: rest) =
      match splitLinesJS rest with
      | [] => [['\r']]
      | l :: ls => ('\r' :: l) :: ls := by
  conv_lhs => unfold splitLinesJS
  split
  · rename_i heq
    simp at heq
  · rename_i heq
    rw [List.cons.injEq] at heq
    rw [heq.2] at h
    simp at h
  · rename_i heq
    rw [List.cons.injEq] at heq
    exact absurd heq.1 (by decide)
  · rename_i heq
    rw [List.cons.injEq] at heq
    rw [← heq.1, ← heq.2]

/-- Equation lemma: an ordinary character joins the first line. -/
theorem splitLinesJS_cons_other (c : Char) (rest : List Char)
    (h1 : c ≠ '\n') (h2 : c ≠ '\r') :
    splitLinesJS (c :: rest) =
      match splitLinesJS rest with
      | [] => [[c]]
      | l :: ls => (c :: l) :: ls := by
  conv_lhs => unfold splitLinesJS
  split
  · rename_i heq
    simp at heq
  · rename_i heq
    rw [List.cons.injEq] at heq
    exact absurd heq.1 h2
  · rename_i heq
    rw [List.cons.injEq] at heq
    exact absurd heq.1 h1
  · rename_i heq
    rw [List.cons.injEq] at heq
    rw [← heq.1, ← heq.2]

/-- The split is never empty. -/
theorem splitLinesJS_ne_nil (cs : List Char) : splitLinesJS cs ≠ [] := by
  induction cs with
  | nil => simp [splitLinesJS]
  | cons c rest ih =>
    unfold splitLinesJS
    split
    · simp
    · simp
    · simp
    · split <;> simp

/-- A helper running structural induction over the split: a property of the
produced lines. -/
theorem splitLinesJS_lines (cs : List Char) :
    ∀ l ∈ splitLinesJS cs, (∀ c ∈ l, c ∈ cs) ∧ '\n' ∉ l := by
  induction cs with
  | nil =>
    intro l hl
    simp [splitLinesJS] at hl
    simp [hl]
  | cons a rest ih =>
    by_cases ha1 : a = '\n'
    · subst ha1
      rw [splitLinesJS_cons_nl]
      intro l hl
      rcases List.mem_cons.mp hl with rfl | hl2
      · simp
      · obtain ⟨hsub, hlf⟩ := ih l hl2
        exact ⟨fun c hc => List.mem_cons_of_mem _ (hsub c hc), hlf⟩
    · by_cases ha2 : a = '\r'
      · subst ha2
        cases rest with
        | nil =>
          intro l hl
          rw [show splitLinesJS ['\x0d'] = [['\x0d']] from rfl] at hl
          rw [List.mem_singleton] at hl
          subst hl
          refine ⟨?_, by decide⟩
          intro c hc
          simpa using hc
        | cons r0 rest2 =>
          by_cases hr0 : r0 = '\n'
          · subst hr0
            rw [splitLinesJS_cons_crlf, splitLinesJS_cons_nl]
            intro l hl
            rcases List.mem_cons.mp hl with rfl | hl2
            · simp
            · obtain ⟨hsub, hlf⟩ := ih l (by rw [splitLinesJS_cons_nl]; exact List.mem_cons_of_mem _ hl2)
              exact ⟨fun c hc => List.mem_cons_of_mem _ (hsub c hc), hlf⟩
          · rw [splitLinesJS_cons_cr (r0 :: rest2) (by simp [hr0])]
            cases hsp : splitLinesJS (r0 :: rest2) with
            | nil => exact absurd hsp (splitLinesJS_ne_nil _)
            | cons l0 ls0 =>
              intro l hl
              rcases List.mem_cons.mp hl with rfl | hl2
              · obtain ⟨hsub, hlf⟩ := ih l0 (by rw [hsp]; exact List.mem_cons_self _ _)
                constructor
                · intro c hc
                  rcases List.mem_cons.mp hc with rfl | hc2
                  · exact List.mem_cons_self _ _
                  · exact List.mem_cons_of_mem _ (hsub c hc2)
                · intro hc
                  rcases List.mem_cons.mp hc with hc2 | hc2
                  · exact absurd hc2.symm (by decide)
                  · exact hlf hc2
              · obtain ⟨hsub, hlf⟩ := ih l (by rw [hsp]; exact List.mem_cons_of_mem _ hl2)
                exact ⟨fun c hc => List.mem_cons_of_mem _ (hsub c hc), hlf⟩
      · rw [splitLinesJS_cons_other a rest ha1 ha2]
        cases hsp : splitLinesJS rest with
        | nil => exact absurd hsp (splitLinesJS_ne_nil _)
        | cons l0 ls0 =>
          intro l hl
          rcases List.mem_cons.mp hl with rfl | hl2
          · obtain ⟨hsub, hlf⟩ := ih l0 (by rw [hsp]; exact List.mem_cons_self _ _)
            constructor
            · intro c hc
              rcases List.mem_cons.mp hc with rfl | hc2
              · exact List.mem_cons_self _ _
              · exact List.mem_cons_of_mem _ (hsub c hc2)
            · intro hc
              rcases List.mem_cons.mp hc with hc2 | hc2
              · exact ha1 hc2.symm
              · exact hlf hc2
          · obtain ⟨hsub, hlf⟩ := ih l (by rw [hsp]; exact List.mem_cons_of_mem _ hl2)
            exact ⟨fun c hc => List.mem_cons_of_mem _ (hsub c hc), hlf⟩

/-- A line-feed- and carriage-return-free list splits into itself. -/
theorem splitLinesJS_single (l : List Char) (hlf : '\n' ∉ l) (hcr : '\r' ∉ l) :
    splitLinesJS l = [l] := by
  induction l with
  | nil => rfl
  | cons c rest ih =>
    have h1 : c ≠ '\n' := fun hc => hlf (hc ▸ List.mem_cons_self _ _)
    have h2 : c ≠ '\r' := fun hc => hcr (hc ▸ List.mem_cons_self _ _)
    rw [splitLinesJS_cons_other c rest h1 h2,
      ih (fun hc => hlf (List.mem_cons_of_mem _ hc)) (fun hc => hcr (List.mem_cons_of_mem _ hc))]

/-- Splitting after appending a line feed peels off the clean first line. -/
theorem splitLinesJS_append_nl (l t : List Char) (hlf : '\n' ∉ l) (hcr : '\r' ∉ l) :
    splitLinesJS (l ++ '\n' :: t) = l :: splitLinesJS t := by
  induction l with
  | nil => rfl
  | cons c rest ih =>
    have h1 : c ≠ '\n' := fun hc => hlf (hc ▸ List.mem_cons_self _ _)
    have h2 : c ≠ '\r' := fun hc => hcr (hc ▸ List.mem_cons_self _ _)
    rw [List.cons_append, splitLinesJS_cons_other _ _ h1 h2,
      ih (fun hc => hlf (List.mem_cons_of_mem _ hc)) (fun hc => hcr (List.mem_cons_of_mem _ hc))]

/-- Joining clean lines and splitting again is the identity. -/
theorem split_join (ls : List (List Char)) (hne : ls ≠ [])
    (h : ∀ l ∈ ls, '\n' ∉ l ∧ '\r' ∉ l) :
    splitLinesJS (joinLinesJS ls) = ls := by
  induction ls with
  | nil => exact absurd rfl hne
  | cons l ls2 ih =>
    cases ls2 with
    | nil =>
      exact splitLinesJS_single l (h l (List.mem_cons_self _ _)).1 (h l (List.mem_cons_self _ _)).2
    | cons l2 ls3 =>
      rw [show joinLinesJS (l :: l2 :: ls3) = l ++ '\n' :: joinLinesJS (l2 :: ls3) from rfl]
      rw [splitLinesJS_append_nl l _ (h l (List.mem_cons_self _ _)).1 (h l (List.mem_cons_self _ _)).2]
      rw [ih (by simp) (fun x hx => h x (List.mem_cons_of_mem _ hx))]

/-- `normChar` hits one of four canonical characters or leaves its input. -/
theorem normChar_cases (c : Char) :
    normChar c = '[' ∨ normChar c = ']' ∨ normChar c = quoteChar2 ∨
    normChar c = quoteChar1 ∨ normChar c = c := by
  unfold normChar
  split_ifs <;> simp

/-- The character normalisation is idempotent on characters. -/
theorem normChar_idem (c : Char) : normChar (normChar c) = normChar c := by
  rcases normChar_cases c with h | h | h | h | h
  · rw [h]
    decide
  · rw [h]
    decide
  · rw [h]
    decide
  · rw [h]
    decide
  · rw [h]
    exact h

/-- Characters of a normalised line are `normChar`-fixed. -/
theorem normChar_fixed_mem (l : List Char) : ∀ c ∈ charNormalize l, normChar c = c := by
  intro c hc
  rw [charNormalize, List.mem_map] at hc
  obtain ⟨c0, _, rfl⟩ := hc
  exact normChar_idem c0

/-- Normalising a line of `normChar`-fixed characters does nothing. -/
theorem charNormalize_fixed (l : List Char) (h : ∀ c ∈ l, normChar c = c) :
    charNormalize l = l := by
  rw [charNormalize]
  rw [List.map_congr_left h]
  exact List.map_id l

/-- A character that is not quote-like never normalises to a plain quote. -/
theorem normChar_quoteFree (c : Char) (h : isQuoteLike c = false) :
    isQuoteChar (normChar c) = false := by
  unfold isQuoteLike at h
  unfold normChar
  split_ifs with h1 h2 h3 h4
  · decide
  · decide
  · exfalso
    simp only [Bool.or_eq_false_iff] at h
    simp only [Bool.or_eq_true] at h3
    rcases h3 with ⟨⟨hc | hc⟩ | hc⟩ | hc
    · exact absurd hc (by simp [h.1.1.1.1.1.2])
    · exact absurd hc (by simp [h.1.1.1.1.2])
    · exact absurd hc (by simp [h.1.1.1.2])
    · exact absurd hc (by simp [h.1.1.2])
  · exfalso
    simp only [Bool.or_eq_false_iff] at h
    simp only [Bool.or_eq_true] at h4
    rcases h4 with hc | hc
    · exact absurd hc (by simp [h.1.2])
    · exact absurd hc (by simp [h.2])
  · simp only [Bool.or_eq_false_iff] at h
    exact h.1.1.1.1.1.1

/-- `normChar` introduces no carriage return. -/
theorem normChar_ne_cr (c : Char) (h : c ≠ '\r') : normChar c ≠ '\r' := by
  rcases normChar_cases c with h2 | h2 | h2 | h2 | h2 <;> rw [h2]
  · decide
  · decide
  · decide
  · decide
  · exact h

/-- `normChar` introduces no line feed. -/
theorem normChar_ne_lf (c : Char) (h : c ≠ '\n') : normChar c ≠ '\n' := by
  rcases normChar_cases c with h2 | h2 | h2 | h2 | h2 <;> rw [h2]
  · decide
  · decide
  · decide
  · decide
  · exact h

/-- No plain quote character occurs (the state after `charNormalize` on an
input without quote-like characters). -/
def QF (cs : List Char) : Prop := ∀ c ∈ cs, isQuoteChar c = false

/-- What the inversion lemmas say about a rest capture: a suffix of the
line, free of line terminators, not starting with whitespace. -/
def GoodRest (line r : List Char) : Prop :=
  r <:+ line ∧ r.all isDotChar = true ∧ (∀ c r2, r = c :: r2 → isSpaceJS c = false)

/-- The remainder after the maximal whitespace front is a suffix of the
remainder after any whitespace front. -/
theorem ws_decomp_suffix (pre1 : List Char) : ∀ (pre0 r0 r1 : List Char),
    pre0 ++ r0 = pre1 ++ r1 → (∀ c ∈ pre0, isSpaceJS c = true) →
    (∀ c r2, r0 = c :: r2 → isSpaceJS c = false) → (∀ c ∈ pre1, isSpaceJS c = true) →
    r0 <:+ r1 := by
  induction pre1 with
  | nil =>
    intro pre0 r0 r1 heq _ _ _
    rw [List.nil_append] at heq
    rw [← heq]
    exact List.suffix_append pre0 r0
  | cons p ps ih =>
    intro pre0 r0 r1 heq hws0 hr0 hws1
    cases pre0 with
    | nil =>
      rw [List.nil_append] at heq
      cases r0 with
      | nil => exact List.nil_suffix
      | cons c r2 =>
        rw [List.cons_append, List.cons.injEq] at heq
        have := hr0 c r2 rfl
        rw [heq.1] at this
        rw [hws1 p (List.mem_cons_self _ _)] at this
        simp at this
    | cons q qs =>
      rw [List.cons_append, List.cons_append, List.cons.injEq] at heq
      exact ih qs r0 r1 heq.2 (fun c hc => hws0 c (List.mem_cons_of_mem _ hc)) hr0
        (fun c hc => hws1 c (List.mem_cons_of_mem _ hc))

/-- On quote-free input the optional quote group of the bracket tail never
fires. -/
theorem tailAfterBracket_noQuote (cs : List Char) (hqf : QF cs) :
    firstSome (wsDrops cs) (fun cs1 =>
      match cs1 with
      | c :: cs2 => if isQuoteChar c then firstSome (wsDrops cs2) dotStarEnd else none
      | [] => none) = none := by
  rw [firstSome_eq_none_iff]
  intro x hx
  obtain ⟨pre, hpre, _⟩ := wsDrops_shape cs x hx
  cases x with
  | nil => rfl
  | cons c cs2 =>
    have hc : c ∈ cs := by
      rw [hpre]
      exact List.mem_append_right _ (List.mem_cons_self _ _)
    show (if isQuoteChar c = true then firstSome (wsDrops cs2) dotStarEnd else none) = none
    rw [hqf c hc]
    simp

/-- Inversion of the bracket tail on quote-free input. -/
theorem tailAfterBracket_inv (cs r : List Char) (hqf : QF cs)
    (h : tailAfterBracket cs = some r) : GoodRest cs r := by
  unfold tailAfterBracket at h
  rw [tailAfterBracket_noQuote cs hqf] at h
  obtain ⟨pre0, r0, tl, hdec, hws0, hr0, hwsd⟩ := wsDrops_decomp cs
  obtain ⟨x, hxmem, hx⟩ := firstSome_some_ex _ _ _ h
  have hxdot : x.all isDotChar = true := by
    unfold dotStarEnd at hx
    by_cases hall : x.all isDotChar
    · exact hall
    · rw [if_neg hall] at hx
      exact absurd hx (by simp)
  have hxr : r = x := by
    unfold dotStarEnd at hx
    rw [if_pos hxdot] at hx
    exact (Option.some.injEq _ _ ▸ hx :).symm
  obtain ⟨prex, hprex, hwsx⟩ := wsDrops_shape cs x hxmem
  have hsuf : r0 <:+ x := ws_decomp_suffix prex pre0 r0 x (by rw [← hdec, ← hprex]) hws0 hr0 hwsx
  have hr0dot : r0.all isDotChar = true := by
    rw [List.all_eq_true] at hxdot ⊢
    intro c hc
    exact hxdot c (hsuf.subset hc)
  have hfirst : firstSome (wsDrops cs) dotStarEnd = some r0 := by
    rw [hwsd]
    exact firstSome_cons_some _ _ _ _ (by unfold dotStarEnd; rw [if_pos hr0dot])
  rw [hfirst, Option.some.injEq] at h
  refine ⟨?_, ?_, ?_⟩
  · rw [← h, hdec]
    exact List.suffix_append pre0 r0
  · rw [← h]
    exact hr0dot
  · intro c r2 hcr
    exact hr0 c r2 (by rw [← hcr, h])

/-- Quote-freeness restricts to suffixes. -/
theorem QF_suffix (l1 l2 : List Char) (h : l1 <:+ l2) (hq : QF l2) : QF l1 :=
  fun c hc => hq c (h.subset hc)

/-- Inversion of `\s*\](?:\s*["'])?\s*(.*)$` (the close bracket expectation
with a fixed checked flag). -/
theorem expectClose_inv (bb : Bool) (cs0 : List Char) (b : Bool) (r : List Char) (hqf : QF cs0)
    (h : firstSome (wsDrops cs0) (fun cs3 =>
      match cs3 with
      | b2 :: cs4 => if b2 == ']' then (tailAfterBracket cs4).map (fun rr => (bb, rr)) else none
      | [] => none) = some (b, r)) :
    GoodRest cs0 r := by
  obtain ⟨cs3, hmem, hcs3⟩ := firstSome_some_ex _ _ _ h
  obtain ⟨pre3, hpre3, _⟩ := wsDrops_shape cs0 cs3 hmem
  have hsuf3 : cs3 <:+ cs0 := by
    rw [hpre3]
    exact List.suffix_append _ _
  cases cs3 with
  | nil => exact absurd hcs3 (by simp)
  | cons b2 cs4 =>
    have hsuf4 : cs4 <:+ cs0 := List.IsSuffix.trans (List.suffix_cons b2 cs4) hsuf3
    by_cases hb2 : (b2 == ']') = true
    · rw [show (match b2 :: cs4 with
        | b2 :: cs4 => if b2 == ']' then (tailAfterBracket cs4).map (fun rr => (bb, rr)) else none
        | [] => none) = if b2 == ']' then (tailAfterBracket cs4).map (fun rr => (bb, rr)) else none
        from rfl, if_pos hb2] at hcs3
      cases htab : tailAfterBracket cs4 with
      | none =>
        rw [htab] at hcs3
        exact absurd hcs3 (by simp)
      | some r2 =>
        rw [htab] at hcs3
        simp at hcs3
        obtain ⟨hgr1, hgr2, hgr3⟩ := tailAfterBracket_inv cs4 r2 (QF_suffix _ _ hsuf4 hqf) htab
        rw [← hcs3.2]
        exact ⟨List.IsSuffix.trans hgr1 hsuf4, hgr2, hgr3⟩
    · rw [show (match b2 :: cs4 with
        | b2 :: cs4 => if b2 == ']' then (tailAfterBracket cs4).map (fun rr => (bb, rr)) else none
        | [] => none) = if b2 == ']' then (tailAfterBracket cs4).map (fun rr => (bb, rr)) else none
        from rfl, if_neg hb2] at hcs3
      exact absurd hcs3 (by simp)

/-- The `([xX])`-absent fallback inside `afterOpenBracket`, inverted. -/
theorem afterOpenBracket_inv_fallback (cs cs1 : List Char) (b : Bool) (r : List Char)
    (hqf : QF cs) (hsuf : cs1 <:+ cs)
    (h : firstSome (wsDrops cs1) (fun cs3 =>
      match cs3 with
      | b2 :: cs4 => if b2 == ']' then (tailAfterBracket cs4).map (fun rr => (false, rr)) else none
      | [] => none) = some (b, r)) : GoodRest cs r := by
  obtain ⟨h1, h2, h3⟩ := expectClose_inv false cs1 b r (QF_suffix _ _ hsuf hqf) h
  exact ⟨List.IsSuffix.trans h1 hsuf, h2, h3⟩

/-- Inversion of `afterOpenBracket` on quote-free input. -/
theorem afterOpenBracket_inv (cs : List Char) (b : Bool) (r : List Char) (hqf : QF cs)
    (h : afterOpenBracket cs = some (b, r)) : GoodRest cs r := by
  unfold afterOpenBracket at h
  obtain ⟨x, hxmem, hx⟩ := firstSome_some_ex _ _ _ h
  obtain ⟨prex, hprex, _⟩ := wsDrops_shape cs x hxmem
  have hsufx : x <:+ cs := by
    rw [hprex]
    exact List.suffix_append _ _
  have hqfx : QF x := QF_suffix _ _ hsufx hqf
  cases x with
  | nil =>
    have hx2 : firstSome (wsDrops ([] : List Char)) (fun cs3 =>
        match cs3 with
        | b2 :: cs4 => if b2 == ']' then (tailAfterBracket cs4).map (fun rr => (false, rr)) else none
        | [] => none) = some (b, r) := hx
    simp [wsDrops, firstSome] at hx2
  | cons c cs2 =>
    have hx2 : (match (if (c == 'x' || c == 'X') = true then
        firstSome (wsDrops cs2) (fun cs3 =>
          match cs3 with
          | b2 :: cs4 => if b2 == ']' then (tailAfterBracket cs4).map (fun rr => (true, rr)) else none
          | [] => none) else none) with
      | some v => some v
      | none => firstSome (wsDrops (c :: cs2)) (fun cs3 =>
          match cs3 with
          | b2 :: cs4 => if b2 == ']' then (tailAfterBracket cs4).map (fun rr => (false, rr)) else none
          | [] => none)) = some (b, r) := hx
    by_cases hcx : (c == 'x' || c == 'X') = true
    · rw [if_pos hcx] at hx2
      cases hwx : firstSome (wsDrops cs2) (fun cs3 =>
          match cs3 with
          | b2 :: cs4 => if b2 == ']' then (tailAfterBracket cs4).map (fun rr => (true, rr)) else none
          | [] => none) with
      | some v =>
        rw [hwx] at hx2
        simp only [Option.some.injEq] at hx2
        rw [hx2] at hwx
        have hsuf2 : cs2 <:+ cs := List.IsSuffix.trans (List.suffix_cons c cs2) hsufx
        obtain ⟨hgr1, hgr2, hgr3⟩ := expectClose_inv true cs2 b r (QF_suffix _ _ hsuf2 hqf) hwx
        exact ⟨List.IsSuffix.trans hgr1 hsuf2, hgr2, hgr3⟩
      | none =>
        rw [hwx] at hx2
        exact afterOpenBracket_inv_fallback cs (c :: cs2) b r hqf hsufx hx2
    · rw [if_neg hcx] at hx2
      exact afterOpenBracket_inv_fallback cs (c :: cs2) b r hqf hsufx hx2

/-- Inversion of `afterListMarker` on quote-free input: the indent passes
through and the rest capture is well-formed. -/
theorem afterListMarker_inv (ind cs i2 : List Char) (b : Bool) (r : List Char) (hqf : QF cs)
    (h : afterListMarker ind cs = some (i2, b, r)) : i2 = ind ∧ GoodRest cs r := by
  unfold afterListMarker at h
  obtain ⟨cs1, hmem, hcs1⟩ := firstSome_some_ex _ _ _ h
  obtain ⟨pre1, hpre1, _⟩ := wsDrops_shape cs cs1 hmem
  have hsuf1 : cs1 <:+ cs := by
    rw [hpre1]
    exact List.suffix_append _ _
  cases cs1 with
  | nil =>
    have hx2 : (none : Option (List Char × Bool × List Char)) = some (i2, b, r) := hcs1
    exact absurd hx2 (by simp)
  | cons c cs2 =>
    have hqc : isQuoteChar c = false := hqf c (hsuf1.subset (List.mem_cons_self _ _))
    have hx2 : (match (if isQuoteChar c = true then
        firstSome (wsDrops cs2) (fun cs3 =>
          match cs3 with
          | b2 :: cs4 => if b2 == '[' then
              (afterOpenBracket cs4).map (fun (q : Bool × List Char) => (ind, q.1, q.2)) else none
          | [] => none) else none) with
      | some v => some v
      | none =>
        if c == '[' then
          (afterOpenBracket cs2).map (fun (q : Bool × List Char) => (ind, q.1, q.2)) else none) =
        some (i2, b, r) := hcs1
    rw [if_neg (by rw [hqc]; simp)] at hx2
    have hx3 : (if c == '[' then
        (afterOpenBracket cs2).map (fun (q : Bool × List Char) => (ind, q.1, q.2)) else none) =
        some (i2, b, r) := hx2
    by_cases hbr : (c == '[') = true
    · rw [if_pos hbr] at hx3
      cases haob : afterOpenBracket cs2 with
      | none =>
        rw [haob] at hx3
        exact absurd hx3 (by simp)
      | some q =>
        obtain ⟨qb, qr⟩ := q
        rw [haob] at hx3
        rw [show Option.map (fun (q : Bool × List Char) => (ind, q.1, q.2)) (some (qb, qr)) =
          some (ind, qb, qr) from rfl, Option.some.injEq, Prod.mk.injEq, Prod.mk.injEq] at hx3
        have hsuf2 : cs2 <:+ cs := List.IsSuffix.trans (List.suffix_cons c cs2) hsuf1
        obtain ⟨hgr1, hgr2, hgr3⟩ := afterOpenBracket_inv cs2 qb qr
          (QF_suffix _ _ hsuf2 hqf) (by rw [haob])
        refine ⟨hx3.1.symm, ?_, ?_, ?_⟩
        · rw [← hx3.2.2]
          exact List.IsSuffix.trans hgr1 hsuf2
        · rw [← hx3.2.2]
          exact hgr2
        · intro d r2 hdr
          exact hgr3 d r2 (by rw [← hdr, hx3.2.2])
    · rw [if_neg hbr] at hx3
      exact absurd hx3 (by simp)

/-- Inversion of the first checkbox regex on a quote-free line: the indent
capture is whitespace and the rest capture is a terminator-free suffix not
beginning with whitespace. -/
theorem matchCheckbox_inv (line ind : List Char) (chk : Bool) (rest : List Char)
    (hqf : QF line) (h : matchCheckbox line = some (ind, chk, rest)) :
    (∀ c ∈ ind, isSpaceJS c = true) ∧ GoodRest line rest ∧ (∃ t, line = ind ++ t) := by
  unfold matchCheckbox at h
  obtain ⟨p, hpmem, hp⟩ := firstSome_some_ex _ _ _ h
  obtain ⟨hpeq, hpws⟩ := wsTakes_shape line p hpmem
  obtain ⟨ind0, suf⟩ := p
  have hsufl : suf <:+ line := by
    rw [hpeq]
    exact List.suffix_append _ _
  cases suf with
  | nil =>
    have hx2 : afterListMarker ind0 [] = some (ind, chk, rest) := hp
    obtain ⟨hi, hgr⟩ := afterListMarker_inv ind0 [] ind chk rest (by intro c hc; simp at hc) hx2
    refine ⟨?_, ⟨?_, hgr.2.1, hgr.2.2⟩, ⟨[], by rw [hi]; exact hpeq⟩⟩
    · intro c hc
      exact hpws c (by rw [hi] at hc; exact hc)
    · exact List.IsSuffix.trans hgr.1 hsufl
  | cons c cs2 =>
    have hx2 : (match (if (c == '-' || c == '*') = true then afterListMarker ind0 cs2 else none) with
      | some v => some v
      | none => afterListMarker ind0 (c :: cs2)) = some (ind, chk, rest) := hp
    have hfin : ∀ csx : List Char, csx <:+ line → afterListMarker ind0 csx = some (ind, chk, rest) →
        (∀ c2 ∈ ind, isSpaceJS c2 = true) ∧ GoodRest line rest ∧ (∃ t, line = ind ++ t) := by
      intro csx hsufx halm
      obtain ⟨hi, hgr⟩ := afterListMarker_inv ind0 csx ind chk rest (QF_suffix _ _ hsufx hqf) halm
      refine ⟨?_, ⟨?_, hgr.2.1, hgr.2.2⟩, ⟨c :: cs2, by rw [hi]; exact hpeq⟩⟩
      · intro c2 hc2
        exact hpws c2 (by rw [hi] at hc2; exact hc2)
      · exact List.IsSuffix.trans hgr.1 hsufx
    by_cases hdash : (c == '-' || c == '*') = true
    · rw [if_pos hdash] at hx2
      cases halm : afterListMarker ind0 cs2 with
      | some v =>
        rw [halm] at hx2
        simp only [Option.some.injEq] at hx2
        exact hfin cs2 (List.IsSuffix.trans (List.suffix_cons c cs2) hsufl) (by rw [halm, hx2])
      | none =>
        rw [halm] at hx2
        exact hfin (c :: cs2) hsufl hx2
    · rw [if_neg hdash] at hx2
      exact hfin (c :: cs2) hsufl hx2

/-- The candidate list of `\s*` over an explicit split starts with the
remainder. -/
theorem wsDrops_first (pre r : List Char) (hws : ∀ c ∈ pre, isSpaceJS c = true)
    (hr : ∀ c r2, r = c :: r2 → isSpaceJS c = false) :
    ∃ tl, wsDrops (pre ++ r) = r :: tl := by
  induction pre with
  | nil =>
    cases r with
    | nil => exact ⟨[], rfl⟩
    | cons c r2 =>
      refine ⟨[], ?_⟩
      rw [List.nil_append]
      unfold wsDrops
      rw [if_neg (by rw [hr c r2 rfl]; simp)]
  | cons p ps ih =>
    obtain ⟨tl, htl⟩ := ih (fun c hc => hws c (List.mem_cons_of_mem _ hc))
    refine ⟨tl ++ [p :: (ps ++ r)], ?_⟩
    rw [List.cons_append]
    unfold wsDrops
    rw [if_pos (hws p (List.mem_cons_self _ _)), htl]
    rfl

/-- The candidate list of `(\s*)` over an explicit split starts with the
full capture. -/
theorem wsTakes_first (pre r : List Char) (hws : ∀ c ∈ pre, isSpaceJS c = true)
    (hr : ∀ c r2, r = c :: r2 → isSpaceJS c = false) :
    ∃ tl, wsTakes (pre ++ r) = (pre, r) :: tl := by
  induction pre with
  | nil =>
    cases r with
    | nil => exact ⟨[], rfl⟩
    | cons c r2 =>
      refine ⟨[], ?_⟩
      rw [List.nil_append]
      unfold wsTakes
      rw [if_neg (by rw [hr c r2 rfl]; simp)]
  | cons p ps ih =>
    obtain ⟨tl, htl⟩ := ih (fun c hc => hws c (List.mem_cons_of_mem _ hc))
    refine ⟨tl.map (fun q => (p :: q.1, q.2)) ++ [([], p :: (ps ++ r))], ?_⟩
    rw [List.cons_append]
    unfold wsTakes
    rw [if_pos (hws p (List.mem_cons_self _ _)), htl]
    rfl

/-- Whitespace characters are untouched by the character normalisation. -/
theorem normChar_fixed_of_ws (c : Char) (h : isSpaceJS c = true) : normChar c = c := by
  unfold normChar
  split_ifs with h1 h2 h3 h4
  · exfalso
    unfold isSpaceJS at h
    rcases Bool.or_eq_true_iff.mp h1 with hc | hc <;>
    · replace hc := beq_iff_eq.mp hc
      rw [hc] at h
      exact absurd h (by decide)
  · exfalso
    unfold isSpaceJS at h
    rcases Bool.or_eq_true_iff.mp h2 with hc | hc <;>
    · replace hc := beq_iff_eq.mp hc
      rw [hc] at h
      exact absurd h (by decide)
  · exfalso
    unfold isSpaceJS at h
    rcases Bool.or_eq_true_iff.mp h3 with hc | hc
    · rcases Bool.or_eq_true_iff.mp hc with hc2 | hc2
      · rcases Bool.or_eq_true_iff.mp hc2 with hc3 | hc3 <;>
        · replace hc3 := beq_iff_eq.mp hc3
          rw [hc3] at h
          exact absurd h (by decide)
      · replace hc2 := beq_iff_eq.mp hc2
        rw [hc2] at h
        exact absurd h (by decide)
    · replace hc := beq_iff_eq.mp hc
      rw [hc] at h
      exact absurd h (by decide)
  · exfalso
    unfold isSpaceJS at h
    rcases Bool.or_eq_true_iff.mp h4 with hc | hc <;>
    · replace hc := beq_iff_eq.mp hc
      rw [hc] at h
      exact absurd h (by decide)
  · rfl

/-- Forward evaluation: the bracket tail on a whitespace run followed by a
clean rest. -/
theorem tailAfterBracket_eval (pre rest : List Char)
    (hpre : ∀ c ∈ pre, isSpaceJS c = true)
    (hhd : ∀ c r2, rest = c :: r2 → isSpaceJS c = false)
    (hdot : rest.all isDotChar = true)
    (hqf : QF (pre ++ rest)) :
    tailAfterBracket (pre ++ rest) = some rest := by
  have hq0 := tailAfterBracket_noQuote (pre ++ rest) hqf
  obtain ⟨tl, htl⟩ := wsDrops_first pre rest hpre hhd
  unfold tailAfterBracket
  simp only [hq0]
  rw [htl]
  apply firstSome_cons_some
  unfold dotStarEnd
  rw [if_pos hdot]

/-- Forward evaluation: the close-bracket expectation of the first checkbox
regex with a given checked flag. -/
theorem expectClose_eval (bb : Bool) (cs4 r : List Char)
    (htab : tailAfterBracket cs4 = some r) :
    firstSome (wsDrops (']' :: cs4)) (fun cs3 =>
      match cs3 with
      | b :: cs4x => if b == ']' then (tailAfterBracket cs4x).map (fun rr => (bb, rr)) else none
      | [] => none) = some (bb, r) := by
  have hwd2 : wsDrops (']' :: cs4) = [']' :: cs4] := by
    unfold wsDrops
    rw [if_neg (by decide)]
  rw [hwd2]
  apply firstSome_cons_some
  simp only [htab]
  rfl

/-- Forward evaluation: `afterOpenBracket` on `x]…`. -/
theorem afterOpenBracket_eval_x (tail0 r : List Char) (htab : tailAfterBracket tail0 = some r) :
    afterOpenBracket ('x' :: ']' :: tail0) = some (true, r) := by
  have hwd : wsDrops ('x' :: ']' :: tail0) = ['x' :: ']' :: tail0] := by
    unfold wsDrops
    rw [if_neg (by decide)]
  have hX := expectClose_eval true tail0 r htab
  unfold afterOpenBracket
  rw [hwd]
  apply firstSome_cons_some
  simp only [hX]
  rfl

/-- Forward evaluation: `afterOpenBracket` on ` ]…` (unchecked box). -/
theorem afterOpenBracket_eval_sp (tail0 r : List Char) (htab : tailAfterBracket tail0 = some r) :
    afterOpenBracket (' ' :: ']' :: tail0) = some (false, r) := by
  have hwd : wsDrops (' ' :: ']' :: tail0) = [']' :: tail0, ' ' :: ']' :: tail0] := by
    unfold wsDrops
    rw [if_pos (by decide)]
    unfold wsDrops
    rw [if_neg (by decide)]
    rfl
  have hfb : firstSome (wsDrops (' ' :: ']' :: tail0)) (fun cs3 =>
      match cs3 with
      | b :: cs4x => if b == ']' then (tailAfterBracket cs4x).map (fun rr => (false, rr)) else none
      | [] => none) = some (false, r) := by
    rw [hwd]
    apply firstSome_cons_some
    simp only [htab]
    rfl
  unfold afterOpenBracket
  rw [hwd]
  apply firstSome_cons_some
  exact hfb

/-- Forward evaluation: `afterListMarker` on ` [` followed by the bracket
body. -/
theorem afterListMarker_eval (ind inner : List Char) (bb : Bool) (r : List Char)
    (haob : afterOpenBracket inner = some (bb, r)) :
    afterListMarker ind (' ' :: '[' :: inner) = some (ind, bb, r) := by
  have hwd : wsDrops (' ' :: '[' :: inner) = ['[' :: inner, ' ' :: '[' :: inner] := by
    unfold wsDrops
    rw [if_pos (by decide)]
    unfold wsDrops
    rw [if_neg (by decide)]
    rfl
  unfold afterListMarker
  rw [hwd]
  apply firstSome_cons_some
  simp only [haob]
  rfl

/-- Forward evaluation: the first checkbox regex on a canonical
`indent- [ .. ] rest` line. -/
theorem matchCheckbox_eval (ind inner : List Char) (bb : Bool) (r : List Char)
    (hind : ∀ c ∈ ind, isSpaceJS c = true)
    (haob : afterOpenBracket inner = some (bb, r)) :
    matchCheckbox (ind ++ '-' :: ' ' :: '[' :: inner) = some (ind, bb, r) := by
  obtain ⟨tl, htl⟩ := wsTakes_first ind ('-' :: ' ' :: '[' :: inner) hind
    (fun c r2 h => by
      have hc : '-' = c := ((List.cons.injEq _ _ _ _).mp h).1
      rw [← hc]
      decide)
  have halm := afterListMarker_eval ind inner bb r haob
  unfold matchCheckbox
  rw [htl]
  apply firstSome_cons_some
  simp only [halm]
  rfl

/-- The `.trimEnd()` applied to a rebuilt canonical checkbox line keeps the
frame and trims only the rest capture (dropping its separating space when
the rest is all whitespace). -/
theorem jsTrimEndL_canonicalBox (ind : List Char) (checked : Bool) (rest : List Char) :
    jsTrimEndL (canonicalBox ind checked rest) =
      ind ++ '-' :: ' ' :: '[' :: (if checked then 'x' else ' ') :: ']' ::
        (if jsTrimEndL rest = [] then [] else ' ' :: jsTrimEndL rest) := by
  by_cases hnil : jsTrimEndL rest = []
  · rw [if_pos hnil]
    have hws : ∀ c ∈ (' ' :: rest), isSpaceJS c = true := by
      have hrt : ∀ c ∈ rest, isSpaceJS c = true := (jsTrimEndL_eq_nil_iff rest).mp hnil
      intro c hc
      rcases List.mem_cons.mp hc with h1 | h1
      · rw [h1]; decide
      · exact hrt c h1
    have hshape : canonicalBox ind checked rest
        = ((ind ++ ['-', ' ', '[', (if checked then 'x' else ' ')]) ++ [']']) ++ (' ' :: rest) := by
      unfold canonicalBox
      simp
    rw [hshape, jsTrimEndL_append_ws _ _ hws, jsTrimEndL_append_last _ _ (by decide)]
    simp
  · rw [if_neg hnil]
    have hshape : canonicalBox ind checked rest
        = (ind ++ ['-', ' ', '[', (if checked then 'x' else ' '), ']', ' ']) ++ rest := by
      unfold canonicalBox
      simp
    rw [hshape, jsTrimEndL_append _ _ hnil]
    simp

/-- The bracket tail cannot fail when some whitespace-stripped suffix is
all dot-class characters. -/
theorem tailAfterBracket_ne_none (cs8 cs9 : List Char) (hm : cs9 ∈ wsDrops cs8)
    (hdot : cs9.all isDotChar = true) : tailAfterBracket cs8 ≠ none := by
  intro hc
  unfold tailAfterBracket at hc
  cases hwq : firstSome (wsDrops cs8) (fun cs1 =>
      match cs1 with
      | c :: cs2 => if isQuoteChar c then firstSome (wsDrops cs2) dotStarEnd else none
      | [] => none) with
  | some r =>
      simp only [hwq] at hc
      exact Option.noConfusion (show (some r : Option (List Char)) = none from hc)
  | none =>
      simp only [hwq] at hc
      rw [firstSome_eq_none_iff] at hc
      have hd := hc cs9 hm
      unfold dotStarEnd at hd
      rw [if_pos hdot] at hd
      exact Option.noConfusion hd

/-- If the first checkbox regex rejects a line, so does the second (its
pattern is the first with the optional list marker made mandatory). -/
theorem matchCheckboxListed_none (line : List Char) (h : matchCheckbox line = none) :
    matchCheckboxListed line = none := by
  cases hl : matchCheckboxListed line with
  | none => rfl
  | some v =>
    exfalso
    unfold matchCheckboxListed at hl
    obtain ⟨p, hpmem, hp⟩ := firstSome_some_ex _ _ _ hl
    obtain ⟨i0, sf⟩ := p
    unfold matchCheckbox at h
    rw [firstSome_eq_none_iff] at h
    cases sf with
    | nil =>
      exact Option.noConfusion
        (show (none : Option (List Char × Bool × List Char)) = some v from hp)
    | cons c cs2 =>
      cases hcb : (c == '-' || c == '*') with
      | false =>
        simp only [hcb] at hp
        exact Option.noConfusion
          (show (none : Option (List Char × Bool × List Char)) = some v from hp)
      | true =>
        have hX := h (i0, c :: cs2) hpmem
        rcases Bool.or_eq_true_iff.mp hcb with h1 | h1
        · have hc2 : c = '-' := beq_iff_eq.mp h1
          subst hc2
          have hp2 : afterListMarker i0 cs2 = some v := hp
          simp only [hp2] at hX
          rw [if_pos (show ('-' == '-' || '-' == '*') = true from by decide)] at hX
          exact Option.noConfusion
            (show (some v : Option (List Char × Bool × List Char)) = none from hX)
        · have hc2 : c = '*' := beq_iff_eq.mp h1
          subst hc2
          have hp2 : afterListMarker i0 cs2 = some v := hp
          simp only [hp2] at hX
          rw [if_pos (show ('*' == '-' || '*' == '*') = true from by decide)] at hX
          exact Option.noConfusion
            (show (some v : Option (List Char × Bool × List Char)) = none from hX)

/-- If the first checkbox regex rejects a line, so does the third
(simple-box) regex: every simple-box match yields a first-regex match. -/
theorem matchSimpleBox_none (line : List Char) (h : matchCheckbox line = none) :
    matchSimpleBox line = none := by
  cases hl : matchSimpleBox line with
  | none => rfl
  | some v =>
    exfalso
    unfold matchSimpleBox at hl
    obtain ⟨p, hpmem, hp⟩ := firstSome_some_ex _ _ _ hl
    obtain ⟨i0, sf⟩ := p
    unfold matchCheckbox at h
    rw [firstSome_eq_none_iff] at h
    cases sf with
    | nil =>
      exact Option.noConfusion
        (show (none : Option (List Char × Char × List Char)) = some v from hp)
    | cons c cs2 =>
      cases hcb : (c == '-' || c == '*') with
      | false =>
        simp only [hcb] at hp
        exact Option.noConfusion
          (show (none : Option (List Char × Char × List Char)) = some v from hp)
      | true =>
        have hX := h (i0, c :: cs2) hpmem
        simp only [hcb] at hX hp
        have halm : afterListMarker i0 cs2 = none := by
          cases halm0 : afterListMarker i0 cs2 with
          | none => rfl
          | some w =>
            exfalso
            simp only [halm0] at hX
            simp at hX
        obtain ⟨cs3, hm3, hp3⟩ := firstSome_some_ex _ _ _ hp
        cases cs3 with
        | nil =>
          exact Option.noConfusion
            (show (none : Option (List Char × Char × List Char)) = some v from hp3)
        | cons b2 cs4 =>
          cases hbb : (b2 == '[') with
          | false =>
            simp only [hbb] at hp3
            exact Option.noConfusion
              (show (none : Option (List Char × Char × List Char)) = some v from hp3)
          | true =>
            have hb2 : b2 = '[' := beq_iff_eq.mp hbb
            subst hb2
            obtain ⟨cs5, hm5, hp5⟩ := firstSome_some_ex _ _ _ hp3
            unfold afterListMarker at halm
            rw [firstSome_eq_none_iff] at halm
            have hA := halm ('[' :: cs4) hm3
            have hA2 : (afterOpenBracket cs4).map
                (fun (q : Bool × List Char) => (i0, q.1, q.2)) = none := hA
            have haob : afterOpenBracket cs4 = none := Option.map_eq_none'.mp hA2
            unfold afterOpenBracket at haob
            rw [firstSome_eq_none_iff] at haob
            cases cs5 with
            | nil =>
              exact Option.noConfusion
                (show (none : Option (List Char × Char × List Char)) = some v from hp5)
            | cons x cs6 =>
              cases hx : (x == 'x' || x == 'X' || x == ' ') with
              | false =>
                simp only [hx] at hp5
                exact Option.noConfusion
                  (show (none : Option (List Char × Char × List Char)) = some v from hp5)
              | true =>
                have hB := haob (x :: cs6) hm5
                simp only [hx] at hp5
                obtain ⟨cs7, hm7, hp7⟩ := firstSome_some_ex _ _ _ hp5
                cases cs7 with
                | nil =>
                  exact Option.noConfusion
                    (show (none : Option (List Char × Char × List Char)) = some v from hp7)
                | cons r1 cs8 =>
                  cases hr1 : (r1 == ']') with
                  | false =>
                    simp only [hr1] at hp7
                    exact Option.noConfusion
                      (show (none : Option (List Char × Char × List Char)) = some v from hp7)
                  | true =>
                    have hrr : r1 = ']' := beq_iff_eq.mp hr1
                    subst hrr
                    obtain ⟨cs9, hm9, hp9⟩ := firstSome_some_ex _ _ _ hp7
                    have hdot9 : cs9.all isDotChar = true := by
                      by_cases hall : cs9.all isDotChar = true
                      · exact hall
                      · exfalso
                        have hde : dotStarEnd cs9 = none := by
                          unfold dotStarEnd
                          rw [if_neg hall]
                        simp only [hde] at hp9
                        exact Option.noConfusion
                          (show (none : Option (List Char × Char × List Char)) = some v from hp9)
                    have htabne := tailAfterBracket_ne_none cs8 cs9 hm9 hdot9
                    rcases Bool.or_eq_true_iff.mp hx with h1 | h1
                    · cases hW : firstSome (wsDrops cs6) (fun cs3 =>
                          match cs3 with
                          | b :: cs4x => if b == ']' then (tailAfterBracket cs4x).map (fun rr => (true, rr)) else none
                          | [] => none) with
                      | some w2 =>
                        simp only [h1, hW] at hB
                        simp at hB
                      | none =>
                        rw [firstSome_eq_none_iff] at hW
                        have hC := hW (']' :: cs8) hm7
                        have hC2 : (tailAfterBracket cs8).map
                            (fun rr => ((true : Bool), rr)) = none := hC
                        exact htabne (Option.map_eq_none'.mp hC2)
                    · have hxs : x = ' ' := beq_iff_eq.mp h1
                      subst hxs
                      have hB2 : firstSome (wsDrops (' ' :: cs6)) (fun cs3 =>
                          match cs3 with
                          | b :: cs4x => if b == ']' then (tailAfterBracket cs4x).map (fun rr => (false, rr)) else none
                          | [] => none) = none := hB
                      rw [firstSome_eq_none_iff] at hB2
                      obtain ⟨pre7, hpre7, hws7⟩ := wsDrops_shape cs6 (']' :: cs8) hm7
                      have hm7x : (']' :: cs8) ∈ wsDrops (' ' :: cs6) := by
                        have hsplit : ' ' :: cs6 = (' ' :: pre7) ++ (']' :: cs8) := by
                          rw [hpre7, List.cons_append]
                        rw [hsplit]
                        exact mem_wsDrops_of_ws_front (' ' :: pre7) (']' :: cs8)
                          (fun cc hcc => by
                            rcases List.mem_cons.mp hcc with h2 | h2
                            · rw [h2]; decide
                            · exact hws7 cc h2)
                      have hC := hB2 (']' :: cs8) hm7x
                      have hC2 : (tailAfterBracket cs8).map
                          (fun rr => ((false : Bool), rr)) = none := hC
                      exact htabne (Option.map_eq_none'.mp hC2)

/-- `transformLine` when the first regex matches. -/
theorem transformLine_eq_some (raw ind : List Char) (chk : Bool) (rest : List Char)
    (h : matchCheckbox (charNormalize raw) = some (ind, chk, rest)) :
    transformLine raw = jsTrimEndL (canonicalBox ind chk rest) := by
  unfold transformLine
  simp only [h]

/-- `transformLine` when the first regex rejects: the other two reject as
well and the line passes through (after character normalisation). -/
theorem transformLine_eq_none (raw : List Char)
    (h : matchCheckbox (charNormalize raw) = none) :
    transformLine raw = charNormalize raw := by
  unfold transformLine
  simp only [h, matchCheckboxListed_none _ h, matchSimpleBox_none _ h]

/-- On lines free of quote-like characters, one pass of `transformLine`
reaches a fixed point. -/
theorem transformLine_idem (l0 : List Char) (hql : ∀ c ∈ l0, isQuoteLike c = false) :
    transformLine (transformLine l0) = transformLine l0 := by
  have hqfL : QF (charNormalize l0) := by
    intro c hc
    rw [charNormalize, List.mem_map] at hc
    obtain ⟨c0, hc0, rfl⟩ := hc
    exact normChar_quoteFree c0 (hql c0 hc0)
  cases hm : matchCheckbox (charNormalize l0) with
  | none =>
    have hT : transformLine l0 = charNormalize l0 := transformLine_eq_none l0 hm
    have hfix : charNormalize (charNormalize l0) = charNormalize l0 :=
      charNormalize_fixed _ (normChar_fixed_mem l0)
    have hm2 : matchCheckbox (charNormalize (charNormalize l0)) = none := by
      rw [hfix]
      exact hm
    have hT2 : transformLine (charNormalize l0) = charNormalize (charNormalize l0) :=
      transformLine_eq_none _ hm2
    rw [hT, hT2, hfix]
  | some trip =>
    obtain ⟨ind, chk, rest⟩ := trip
    obtain ⟨hind, hgr, hindt⟩ := matchCheckbox_inv _ _ _ _ hqfL hm
    obtain ⟨hsuf, hdot, hhd⟩ := hgr
    have hT : transformLine l0 = jsTrimEndL (canonicalBox ind chk rest) :=
      transformLine_eq_some l0 ind chk rest hm
    obtain ⟨t, hrt, htw⟩ := jsTrimEndL_decomp rest
    have hr2dot : (jsTrimEndL rest).all isDotChar = true := by
      rw [List.all_eq_true] at hdot ⊢
      intro c hc
      apply hdot
      rw [hrt]
      exact List.mem_append_left _ hc
    have hr2hd : ∀ c r2, jsTrimEndL rest = c :: r2 → isSpaceJS c = false := by
      intro c r2 hcr
      apply hhd c (r2 ++ t)
      rw [hrt, hcr]
      simp
    have hr2qf : QF (jsTrimEndL rest) := by
      intro c hc
      apply hqfL
      apply hsuf.subset
      rw [hrt]
      exact List.mem_append_left _ hc
    have hshape := jsTrimEndL_canonicalBox ind chk rest
    have htab : tailAfterBracket (if jsTrimEndL rest = [] then [] else ' ' :: jsTrimEndL rest)
        = some (jsTrimEndL rest) := by
      by_cases hnil : jsTrimEndL rest = []
      · rw [if_pos hnil, hnil]
        rfl
      · rw [if_neg hnil]
        cases hr2 : jsTrimEndL rest with
        | nil => exact absurd hr2 hnil
        | cons c0 r2 =>
          have hc0 : isSpaceJS c0 = false := hr2hd c0 r2 hr2
          have hcons : (' ' :: c0 :: r2 : List Char) = [' '] ++ (c0 :: r2) := rfl
          rw [hcons]
          exact tailAfterBracket_eval [' '] (c0 :: r2)
            (by
              intro c hc
              rcases List.mem_cons.mp hc with h1 | h1
              · rw [h1]; decide
              · exact absurd h1 (by simp))
            (fun c r3 hc => by
              have hcc : c0 = c := ((List.cons.injEq _ _ _ _).mp hc).1
              rw [← hcc]
              exact hc0)
            (by rw [← hr2]; exact hr2dot)
            (by
              intro c hc
              rcases List.mem_append.mp hc with h1 | h1
              · rcases List.mem_singleton.mp h1 with rfl
                decide
              · rw [← hr2] at h1
                exact hr2qf c h1)
    have haob : afterOpenBracket ((if chk then 'x' else ' ') :: ']' ::
        (if jsTrimEndL rest = [] then [] else ' ' :: jsTrimEndL rest))
        = some (chk, jsTrimEndL rest) := by
      cases chk with
      | true => exact afterOpenBracket_eval_x _ _ htab
      | false => exact afterOpenBracket_eval_sp _ _ htab
    have hmA : matchCheckbox (ind ++ '-' :: ' ' :: '[' :: (if chk then 'x' else ' ') :: ']' ::
        (if jsTrimEndL rest = [] then [] else ' ' :: jsTrimEndL rest))
        = some (ind, chk, jsTrimEndL rest) :=
      matchCheckbox_eval ind _ chk (jsTrimEndL rest) hind haob
    have hfixA : charNormalize (ind ++ '-' :: ' ' :: '[' :: (if chk then 'x' else ' ') :: ']' ::
        (if jsTrimEndL rest = [] then [] else ' ' :: jsTrimEndL rest))
        = ind ++ '-' :: ' ' :: '[' :: (if chk then 'x' else ' ') :: ']' ::
        (if jsTrimEndL rest = [] then [] else ' ' :: jsTrimEndL rest) := by
      apply charNormalize_fixed
      intro c hc
      rcases List.mem_append.mp hc with h1 | h1
      · exact normChar_fixed_of_ws c (hind c h1)
      · rcases List.mem_cons.mp h1 with h2 | h1
        · rw [h2]; decide
        rcases List.mem_cons.mp h1 with h2 | h1
        · rw [h2]; decide
        rcases List.mem_cons.mp h1 with h2 | h1
        · rw [h2]; decide
        rcases List.mem_cons.mp h1 with h2 | h1
        · cases chk with
          | true => rw [h2]; decide
          | false => rw [h2]; decide
        rcases List.mem_cons.mp h1 with h2 | h1
        · rw [h2]; decide
        by_cases hnil : jsTrimEndL rest = []
        · rw [if_pos hnil] at h1
          exact absurd h1 (by simp)
        · rw [if_neg hnil] at h1
          rcases List.mem_cons.mp h1 with h2 | h1
          · rw [h2]; decide
          apply normChar_fixed_mem l0
          apply hsuf.subset
          rw [hrt]
          exact List.mem_append_left _ h1
    have hT2 : transformLine (ind ++ '-' :: ' ' :: '[' :: (if chk then 'x' else ' ') :: ']' ::
        (if jsTrimEndL rest = [] then [] else ' ' :: jsTrimEndL rest))
        = jsTrimEndL (canonicalBox ind chk (jsTrimEndL rest)) := by
      apply transformLine_eq_some
      rw [hfixA]
      exact hmA
    rw [hT, hshape, hT2, jsTrimEndL_canonicalBox, jsTrimEndL_idem]

/-- On a line with no quote-like characters, the output of `transformLine`
contains no line terminator if the input contains none. -/
theorem transformLine_no_crlf (l : List Char)
    (hql : ∀ c ∈ l, isQuoteLike c = false)
    (hnl : '\n' ∉ l) (hcr : '\r' ∉ l) :
    '\n' ∉ transformLine l ∧ '\r' ∉ transformLine l := by
  have hqfL : QF (charNormalize l) := by
    intro c hc
    rw [charNormalize, List.mem_map] at hc
    obtain ⟨c0, hc0, rfl⟩ := hc
    exact normChar_quoteFree c0 (hql c0 hc0)
  have hLn : '\n' ∉ charNormalize l := by
    intro hc
    rw [charNormalize, List.mem_map] at hc
    obtain ⟨c0, hc0, hcn⟩ := hc
    exact normChar_ne_lf c0 (fun he => hnl (he ▸ hc0)) hcn
  have hLr : '\r' ∉ charNormalize l := by
    intro hc
    rw [charNormalize, List.mem_map] at hc
    obtain ⟨c0, hc0, hcn⟩ := hc
    exact normChar_ne_cr c0 (fun he => hcr (he ▸ hc0)) hcn
  cases hm : matchCheckbox (charNormalize l) with
  | none =>
    rw [transformLine_eq_none l hm]
    exact ⟨hLn, hLr⟩
  | some trip =>
    obtain ⟨ind, chk, rest⟩ := trip
    obtain ⟨hind, hgr, t2, hindt⟩ := matchCheckbox_inv _ _ _ _ hqfL hm
    rw [transformLine_eq_some l ind chk rest hm]
    have hsubT : ∀ c, c ∈ jsTrimEndL (canonicalBox ind chk rest) →
        c ∈ canonicalBox ind chk rest := by
      intro c hc
      obtain ⟨t3, h3, _⟩ := jsTrimEndL_decomp (canonicalBox ind chk rest)
      rw [h3]
      exact List.mem_append_left _ hc
    have hchars : ∀ c, c ∈ jsTrimEndL (canonicalBox ind chk rest) →
        c ∈ charNormalize l ∨ c = '-' ∨ c = ' ' ∨ c = '[' ∨ c = ']' ∨ c = 'x' := by
      intro c hc
      have hc2 := hsubT c hc
      unfold canonicalBox at hc2
      rcases List.mem_append.mp hc2 with h1 | h1
      · left
        rw [hindt]
        exact List.mem_append_left _ h1
      · rcases List.mem_cons.mp h1 with h2 | h1
        · right; left; exact h2
        rcases List.mem_cons.mp h1 with h2 | h1
        · right; right; left; exact h2
        rcases List.mem_cons.mp h1 with h2 | h1
        · right; right; right; left; exact h2
        rcases List.mem_cons.mp h1 with h2 | h1
        · cases chk with
          | true => right; right; right; right; right; exact h2
          | false => right; right; left; exact h2
        rcases List.mem_cons.mp h1 with h2 | h1
        · right; right; right; right; left; exact h2
        rcases List.mem_cons.mp h1 with h2 | h1
        · right; right; left; exact h2
        · left
          exact hgr.1.subset h1
    refine ⟨fun hc => ?_, fun hc => ?_⟩
    · rcases hchars _ hc with h1 | h1 | h1 | h1 | h1 | h1
      · exact hLn h1
      all_goals exact absurd h1 (by decide)
    · rcases hchars _ hc with h1 | h1 | h1 | h1 | h1 | h1
      · exact hLr h1
      all_goals exact absurd h1 (by decide)

/-- Claim C9 (amended): `normalizeCheckboxes` is idempotent on every input
free of carriage-return characters and of quote characters (straight or
typographic); on such inputs running it a second time changes nothing. -/
theorem normalizeCheckboxes_idem (s : String)
    (hcr : ∀ c ∈ s.toList, c ≠ '\r')
    (hq : ∀ c ∈ s.toList, isQuoteLike c = false) :
    normalizeCheckboxes (normalizeCheckboxes s) = normalizeCheckboxes s := by
  have hlines := splitLinesJS_lines s.toList
  have hsplit : splitLinesJS (joinLinesJS ((splitLinesJS s.toList).map transformLine))
      = (splitLinesJS s.toList).map transformLine := by
    apply split_join
    · intro hc
      rw [List.map_eq_nil_iff] at hc
      exact splitLinesJS_ne_nil s.toList hc
    · intro l2 hl2
      rw [List.mem_map] at hl2
      obtain ⟨l, hl, rfl⟩ := hl2
      obtain ⟨hsub, hnl⟩ := hlines l hl
      have hcrl : '\r' ∉ l := fun hc => hcr '\r' (hsub _ hc) rfl
      have hqll : ∀ c ∈ l, isQuoteLike c = false := fun c hc => hq c (hsub c hc)
      exact transformLine_no_crlf l hqll hnl hcrl
  unfold normalizeCheckboxes
  have hmk : (String.mk (joinLinesJS ((splitLinesJS s.toList).map transformLine))).toList
      = joinLinesJS ((splitLinesJS s.toList).map transformLine) := rfl
  rw [hmk, hsplit, List.map_map]
  congr 1
  congr 1
  apply List.map_congr_left
  intro l hl
  obtain ⟨hsub, _⟩ := hlines l hl
  show transformLine (transformLine l) = transformLine l
  exact transformLine_idem l (fun c hc => hq c (hsub c hc))

/-- Claim C9 counterexample: on the line `- [x] ""a` (straight double
quotes after the bracket) the first pass consumes one quote through the
optional post-bracket quote group and keeps the other in the rest capture,
so a second pass strips another quote and the result changes again. -/
theorem normalizeCheckboxes_not_idempotent :
    normalizeCheckboxes (normalizeCheckboxes "- [x] \"\"a")
      ≠ normalizeCheckboxes "- [x] \"\"a" := by
  decide

/-- Claim C9 witness: the amended idempotence at the concrete checkbox
line `- [ ] ab`. -/
theorem normalizeCheckboxes_idem_witness :
    normalizeCheckboxes (normalizeCheckboxes "- [ ] ab") = normalizeCheckboxes "- [ ] ab" :=
  normalizeCheckboxes_idem "- [ ] ab" (by decide) (by decide)

end Resonance
